import Mathlib

set_option maxHeartbeats 1000000

/- Formal model of the chess rules engine in `chess.js`.

   Squares are (row, column) pairs with both coordinates in [0,7]; row 0 is
   Black's back rank.  A board maps every square to an optional piece; the
   source stores pieces as characters ('P'..'K' white, 'p'..'k' black), which
   we render as `Piece` values (kind plus color) and the empty string as
   `none`.

   JavaScript array semantics for the sliding-piece loops: `board[r][c]` with
   `r` outside [0,7] evaluates `undefined[c]` and throws (modelled as
   `Except.error ()`), while an in-range row with an out-of-range column yields
   `undefined`, which is falsy and therefore behaves as an empty square.  The
   `while` loops of the rook/bishop/queen branches are modelled with a fuel
   counter of 16, far above the at most 9 iterations any run of the source
   loop performs before returning or throwing. -/

inductive Color where
  | white
  | black
deriving DecidableEq, Fintype

def Color.opp : Color → Color
  | .white => .black
  | .black => .white

inductive Kind where
  | pawn
  | rook
  | knight
  | bishop
  | queen
  | king
deriving DecidableEq, Fintype

structure Piece where
  kind : Kind
  color : Color
deriving DecidableEq, Fintype

abbrev Sq : Type := Fin 8 × Fin 8

instance {ε α : Type} [DecidableEq ε] [DecidableEq α] : DecidableEq (Except ε α)
  | .error a, .error b =>
    if h : a = b then .isTrue (by rw [h]) else .isFalse (by intro hh; cases hh; exact h rfl)
  | .error _, .ok _ => .isFalse (by intro h; cases h)
  | .ok _, .error _ => .isFalse (by intro h; cases h)
  | .ok a, .ok b =>
    if h : a = b then .isTrue (by rw [h]) else .isFalse (by intro hh; cases hh; exact h rfl)

example : (Except.ok true : Except Unit Bool) ≠ .error () := by decide

def Board : Type := Fin 8 → Fin 8 → Option Piece

/-- Row or column index of a square as an integer (JS numbers are exact here). -/
def ri (x : Fin 8) : ℤ := (x : ℕ)

/-- The piece at integer coordinates, `none` when out of range. -/
def optAt (b : Board) (r c : ℤ) : Option Piece :=
  if h : 0 ≤ r ∧ r < 8 ∧ 0 ≤ c ∧ c < 8 then
    b ⟨r.toNat, by omega⟩ ⟨c.toNat, by omega⟩
  else none

/-- JS read `board[r][c]`: out-of-range row throws, out-of-range column is
`undefined` (an empty square as far as truthiness goes). -/
def getI (b : Board) (r c : ℤ) : Except Unit (Option Piece) :=
  if 0 ≤ r ∧ r < 8 then .ok (optAt b r c) else .error ()

/-- Instrumented read that faults on any out-of-range coordinate; used to
state that a computation only ever touches squares of the 8×8 board. -/
def getIS (b : Board) (r c : ℤ) : Except Unit (Option Piece) :=
  if 0 ≤ r ∧ r < 8 ∧ 0 ≤ c ∧ c < 8 then .ok (optAt b r c) else .error ()

/-- Source `isWhite(piece)`: truthy and equal to its uppercasing. -/
def isWhiteOpt : Option Piece → Bool
  | some q => q.color = Color.white
  | none => false

/-- Source `isBlack(piece)`: truthy and equal to its lowercasing. -/
def isBlackOpt : Option Piece → Bool
  | some q => q.color = Color.black
  | none => false

/-- The rook-branch `while (r !== toRow || c !== toCol)` loop of `isLegalMove`,
also reused verbatim by the queen branch. -/
def rookScanG (get : ℤ → ℤ → Except Unit (Option Piece)) (toR toC dr dc : ℤ) :
    ℕ → ℤ → ℤ → Except Unit Bool
  | 0, _, _ => .error ()
  | fuel + 1, r, c =>
    if r = toR ∧ c = toC then .ok true
    else
      match get r c with
      | .error e => .error e
      | .ok (some _) => .ok false
      | .ok none => rookScanG get toR toC dr dc fuel (r + dr) (c + dc)

/-- The bishop-branch `while (r !== toRow && c !== toCol)` loop of
`isLegalMove`, also reused verbatim by the queen branch. -/
def bishScanG (get : ℤ → ℤ → Except Unit (Option Piece)) (toR toC dr dc : ℤ) :
    ℕ → ℤ → ℤ → Except Unit Bool
  | 0, _, _ => .error ()
  | fuel + 1, r, c =>
    if r = toR ∨ c = toC then .ok true
    else
      match get r c with
      | .error e => .error e
      | .ok (some _) => .ok false
      | .ok none => bishScanG get toR toC dr dc fuel (r + dr) (c + dc)

/-- Rook movement block of `isLegalMove` (lines 222-235 of the source). -/
def rookMoveG (get : ℤ → ℤ → Except Unit (Option Piece)) (f t : Sq) :
    Except Unit Bool :=
  let fromRow := ri f.1
  let fromCol := ri f.2
  let toRow := ri t.1
  let toCol := ri t.2
  if fromRow = toRow ∨ fromCol = toCol then
    let rowStep : ℤ := if fromRow = toRow then 0 else if toRow > fromRow then 1 else -1
    let colStep : ℤ := if fromCol = toCol then 0 else if toCol > fromCol then 1 else -1
    rookScanG get toRow toCol rowStep colStep 16 (fromRow + rowStep) (fromCol + colStep)
  else .ok false

/-- Bishop movement block of `isLegalMove` (lines 237-250 of the source). -/
def bishMoveG (get : ℤ → ℤ → Except Unit (Option Piece)) (f t : Sq) :
    Except Unit Bool :=
  let fromRow := ri f.1
  let fromCol := ri f.2
  let toRow := ri t.1
  let toCol := ri t.2
  if (fromRow - toRow).natAbs = (fromCol - toCol).natAbs then
    let rowStep : ℤ := if toRow > fromRow then 1 else -1
    let colStep : ℤ := if toCol > fromCol then 1 else -1
    bishScanG get toRow toCol rowStep colStep 16 (fromRow + rowStep) (fromCol + colStep)
  else .ok false

/-- Queen movement block of `isLegalMove` (lines 252-278): the rook-like
branch runs first and always returns when taken; otherwise the bishop-like
branch (or the final `return false`) decides. -/
def queenMoveG (get : ℤ → ℤ → Except Unit (Option Piece)) (f t : Sq) :
    Except Unit Bool :=
  if ri f.1 = ri t.1 ∨ ri f.2 = ri t.2 then rookMoveG get f t
  else bishMoveG get f t

/-- Source `isLegalMove(from, to, piece, board, ignorePawnCapture)`, with the
board read used by the sliding loops abstracted as `get` so that the same
text can be run with the instrumented reader.  The if-chains on the piece
character are rendered as a match: the per-kind guards of the source are
mutually exclusive, and each unmatched kind falls through to `return false`. -/
def isLegalMoveWith (get : ℤ → ℤ → Except Unit (Option Piece))
    (f t : Sq) (p : Piece) (b : Board) (ignorePawnCapture : Bool) :
    Except Unit Bool :=
  let fromRow := ri f.1
  let fromCol := ri f.2
  let toRow := ri t.1
  let toCol := ri t.2
  let target := b t.1 t.2
  match p with
  | ⟨.pawn, .white⟩ =>
    if fromCol = toCol ∧ target = none ∧
        (toRow = fromRow - 1 ∨ (fromRow = 6 ∧ toRow = 4 ∧ b 5 f.2 = none)) then .ok true
    else if (toCol - fromCol).natAbs = 1 ∧ toRow = fromRow - 1 ∧
        isBlackOpt target = true then .ok true
    else if ignorePawnCapture = true ∧ (toCol - fromCol).natAbs = 1 ∧
        toRow = fromRow - 1 then .ok true
    else .ok false
  | ⟨.pawn, .black⟩ =>
    if fromCol = toCol ∧ target = none ∧
        (toRow = fromRow + 1 ∨ (fromRow = 1 ∧ toRow = 3 ∧ b 2 f.2 = none)) then .ok true
    else if (toCol - fromCol).natAbs = 1 ∧ toRow = fromRow + 1 ∧
        isWhiteOpt target = true then .ok true
    else if ignorePawnCapture = true ∧ (toCol - fromCol).natAbs = 1 ∧
        toRow = fromRow + 1 then .ok true
    else .ok false
  | ⟨.rook, _⟩ => rookMoveG get f t
  | ⟨.bishop, _⟩ => bishMoveG get f t
  | ⟨.queen, _⟩ => queenMoveG get f t
  | ⟨.knight, _⟩ =>
    .ok (decide ((fromRow - toRow).natAbs = 2 ∧ (fromCol - toCol).natAbs = 1 ∨
                 (fromRow - toRow).natAbs = 1 ∧ (fromCol - toCol).natAbs = 2))
  | ⟨.king, _⟩ =>
    .ok (decide ((fromRow - toRow).natAbs ≤ 1 ∧ (fromCol - toCol).natAbs ≤ 1))

/-- The source predicate with real JS array semantics. -/
def isLegalMove (f t : Sq) (p : Piece) (b : Board) (m : Bool) : Except Unit Bool :=
  isLegalMoveWith (getI b) f t p b m

/-- The same predicate run with the instrumented reader: any read outside the
8×8 board faults. -/
def isLegalMoveS (f t : Sq) (p : Piece) (b : Board) (m : Bool) : Except Unit Bool :=
  isLegalMoveWith (getIS b) f t p b m

example : isLegalMove (⟨0,by omega⟩, ⟨0,by omega⟩) (⟨0,by omega⟩, ⟨5,by omega⟩)
    ⟨.rook, .white⟩ (fun _ _ => none) false = .ok true := by decide

example : isLegalMove (⟨0,by omega⟩, ⟨0,by omega⟩) (⟨0,by omega⟩, ⟨0,by omega⟩)
    ⟨.bishop, .white⟩ (fun _ _ => none) false = .error () := by decide

/-! ## Spec-side path predicates

Renderings of the spec's wording for the sliding pieces ("same row or same
column and every square strictly between origin and destination is empty",
"equal absolute row and column deltas and every square strictly between is
empty"), to be compared with the loops of the source. -/

/-- Same row or same column. -/
def rookLine (f t : Sq) : Prop := f.1 = t.1 ∨ f.2 = t.2

/-- `x` lies strictly between `a` and `b` (in either order). -/
def betweenOn (a b x : Fin 8) : Prop := (a < x ∧ x < b) ∨ (b < x ∧ x < a)

/-- A square strictly between `f` and `t` along their shared row or column. -/
def rookBetween (f t s : Sq) : Prop :=
  (f.1 = t.1 ∧ s.1 = f.1 ∧ betweenOn f.2 t.2 s.2) ∨
  (f.2 = t.2 ∧ s.2 = f.2 ∧ betweenOn f.1 t.1 s.1)

/-- Every square strictly between `f` and `t` along the rook line is empty. -/
def rookClear (b : Board) (f t : Sq) : Prop :=
  ∀ s : Sq, rookBetween f t s → b s.1 s.2 = none

/-- Equal absolute row and column deltas. -/
def diagLine (f t : Sq) : Prop := (ri f.1 - ri t.1).natAbs = (ri f.2 - ri t.2).natAbs

/-- A square strictly between `f` and `t` along their shared diagonal. -/
def diagBetween (f t s : Sq) : Prop :=
  betweenOn f.1 t.1 s.1 ∧ betweenOn f.2 t.2 s.2 ∧
  (ri s.1 - ri f.1).natAbs = (ri s.2 - ri f.2).natAbs

/-- Every square strictly between `f` and `t` along the diagonal is empty. -/
def diagClear (b : Board) (f t : Sq) : Prop :=
  ∀ s : Sq, diagBetween f t s → b s.1 s.2 = none

instance (f t : Sq) : Decidable (rookLine f t) := by unfold rookLine; infer_instance

instance (a b x : Fin 8) : Decidable (betweenOn a b x) := by unfold betweenOn; infer_instance

instance (f t s : Sq) : Decidable (rookBetween f t s) := by unfold rookBetween; infer_instance

instance (b : Board) (f t : Sq) : Decidable (rookClear b f t) := by
  unfold rookClear; infer_instance

instance (f t : Sq) : Decidable (diagLine f t) := by unfold diagLine; infer_instance

instance (f t s : Sq) : Decidable (diagBetween f t s) := by unfold diagBetween; infer_instance

instance (b : Board) (f t : Sq) : Decidable (diagClear b f t) := by
  unfold diagClear; infer_instance

/-! ## Coordinate bookkeeping -/

lemma ri_nonneg (x : Fin 8) : 0 ≤ ri x := by unfold ri; positivity

lemma ri_lt_eight (x : Fin 8) : ri x < 8 := by
  unfold ri; exact_mod_cast x.isLt

lemma ri_inj {x y : Fin 8} : ri x = ri y ↔ x = y := by
  unfold ri
  constructor
  · intro h; exact Fin.ext (by exact_mod_cast h)
  · intro h; rw [h]

lemma ri_lt {x y : Fin 8} : ri x < ri y ↔ x < y := by
  unfold ri; rw [Fin.lt_def]; exact_mod_cast Iff.rfl

/-- Build a square coordinate from an in-range integer. -/
def mkFin (z : ℤ) (h1 : 0 ≤ z) (h2 : z < 8) : Fin 8 := ⟨z.toNat, by omega⟩

lemma ri_mkFin (z : ℤ) (h1 : 0 ≤ z) (h2 : z < 8) : ri (mkFin z h1 h2) = z := by
  unfold ri mkFin
  simp
  omega

lemma optAt_eq (b : Board) (z w : ℤ) (h1 : 0 ≤ z) (h2 : z < 8) (h3 : 0 ≤ w) (h4 : w < 8) :
    optAt b z w = b (mkFin z h1 h2) (mkFin w h3 h4) := by
  unfold optAt mkFin
  rw [dif_pos ⟨h1, h2, h3, h4⟩]

lemma optAt_coe (b : Board) (x y : Fin 8) : optAt b (ri x) (ri y) = b x y := by
  rw [optAt_eq b (ri x) (ri y) (ri_nonneg x) (ri_lt_eight x) (ri_nonneg y) (ri_lt_eight y)]
  congr 1 <;> exact Fin.ext (by simp [mkFin, ri])

lemma getI_spec (b : Board) (r c : ℤ) (h1 : 0 ≤ r) (h2 : r < 8) (h3 : 0 ≤ c) (h4 : c < 8) :
    getI b r c = .ok (optAt b r c) := by
  unfold getI
  rw [if_pos ⟨h1, h2⟩]

lemma getIS_spec (b : Board) (r c : ℤ) (h1 : 0 ≤ r) (h2 : r < 8) (h3 : 0 ≤ c) (h4 : c < 8) :
    getIS b r c = .ok (optAt b r c) := by
  unfold getIS
  rw [if_pos ⟨h1, h2, h3, h4⟩]

/-- A reader that agrees with direct board access on in-range coordinates. -/
def GetterFor (get : ℤ → ℤ → Except Unit (Option Piece)) (b : Board) : Prop :=
  ∀ r c : ℤ, 0 ≤ r → r < 8 → 0 ≤ c → c < 8 → get r c = .ok (optAt b r c)

lemma getterFor_getI (b : Board) : GetterFor (getI b) b :=
  fun r c h1 h2 h3 h4 => getI_spec b r c h1 h2 h3 h4

lemma getterFor_getIS (b : Board) : GetterFor (getIS b) b :=
  fun r c h1 h2 h3 h4 => getIS_spec b r c h1 h2 h3 h4

/-! ## Behaviour of the sliding-piece loops -/

/-- Horizontal run of the rook loop: starting `d` squares short of the target
column on the target row, it terminates and reports whether every remaining
intermediate square is empty. -/
lemma rookScanG_row (get : ℤ → ℤ → Except Unit (Option Piece)) (b : Board)
    (hget : GetterFor get b) (toR toC : ℤ) (h0R : 0 ≤ toR) (h8R : toR < 8)
    (s : ℤ) (hs : s = 1 ∨ s = -1) :
    ∀ d fuel : ℕ, d < fuel → ∀ c : ℤ,
      toC = c + s * d → 0 ≤ c → c < 8 → 0 ≤ toC → toC < 8 →
      rookScanG get toR toC 0 s fuel toR c =
        .ok (decide (∀ i : ℕ, i < d → optAt b toR (c + s * i) = none)) := by
  intro d
  induction d with
  | zero =>
    intro fuel hfuel c hc h0c h8c h0t h8t
    obtain ⟨fuel, rfl⟩ : ∃ k, fuel = k + 1 := ⟨fuel - 1, by omega⟩
    have hceq : toC = c := by simpa using hc
    subst hceq
    simp [rookScanG]
  | succ d ih =>
    intro fuel hfuel c hc h0c h8c h0t h8t
    obtain ⟨fuel, rfl⟩ : ∃ k, fuel = k + 1 := ⟨fuel - 1, by omega⟩
    push_cast at hc
    have hne : ¬(True ∧ c = toC) := by
      rcases hs with rfl | rfl <;> simp <;> omega
    simp only [rookScanG]
    rw [if_neg hne, hget toR c h0R h8R h0c h8c]
    cases hbc : optAt b toR c with
    | some q =>
      have hfalse : ¬(∀ i : ℕ, i < d + 1 → optAt b toR (c + s * i) = none) := by
        intro hcon
        have h0 := hcon 0 (by omega)
        rw [show c + s * ((0:ℕ):ℤ) = c by push_cast; ring] at h0
        rw [hbc] at h0
        exact Option.some_ne_none q h0
      rw [decide_eq_false hfalse]
    | none =>
      have harith : toC = (c + s) + s * (d:ℤ) := by rw [hc]; ring
      have hr1 : 0 ≤ c + s := by rcases hs with rfl | rfl <;> omega
      have hr2 : c + s < 8 := by rcases hs with rfl | rfl <;> omega
      rw [show toR + 0 = toR from add_zero toR]
      rw [ih fuel (by omega) (c + s) harith hr1 hr2 h0t h8t]
      show Except.ok (decide (∀ i : ℕ, i < d → optAt b toR (c + s + s * (i:ℤ)) = none)) =
        Except.ok (decide (∀ i : ℕ, i < d + 1 → optAt b toR (c + s * (i:ℤ)) = none))
      congr 1
      rw [decide_eq_decide]
      constructor
      · intro h i hi
        rcases i with _ | j
        · rw [show c + s * ((0:ℕ):ℤ) = c by push_cast; ring]
          exact hbc
        · have hj := h j (by omega)
          rw [show c + s + s * (j:ℤ) = c + s * ((j+1 : ℕ):ℤ) by push_cast; ring] at hj
          exact hj
      · intro h j hj
        have hj1 := h (j + 1) (by omega)
        rw [show c + s * ((j+1 : ℕ):ℤ) = c + s + s * (j:ℤ) by push_cast; ring] at hj1
        exact hj1

/-- Vertical run of the rook loop. -/
lemma rookScanG_col (get : ℤ → ℤ → Except Unit (Option Piece)) (b : Board)
    (hget : GetterFor get b) (toR toC : ℤ) (h0C : 0 ≤ toC) (h8C : toC < 8)
    (s : ℤ) (hs : s = 1 ∨ s = -1) :
    ∀ d fuel : ℕ, d < fuel → ∀ r : ℤ,
      toR = r + s * d → 0 ≤ r → r < 8 → 0 ≤ toR → toR < 8 →
      rookScanG get toR toC s 0 fuel r toC =
        .ok (decide (∀ i : ℕ, i < d → optAt b (r + s * i) toC = none)) := by
  intro d
  induction d with
  | zero =>
    intro fuel hfuel r hr h0r h8r h0t h8t
    obtain ⟨fuel, rfl⟩ : ∃ k, fuel = k + 1 := ⟨fuel - 1, by omega⟩
    have hreq : toR = r := by simpa using hr
    subst hreq
    simp [rookScanG]
  | succ d ih =>
    intro fuel hfuel r hr h0r h8r h0t h8t
    obtain ⟨fuel, rfl⟩ : ∃ k, fuel = k + 1 := ⟨fuel - 1, by omega⟩
    push_cast at hr
    have hne : ¬(r = toR ∧ True) := by
      rcases hs with rfl | rfl <;> simp <;> omega
    simp only [rookScanG]
    rw [if_neg hne, hget r toC h0r h8r h0C h8C]
    cases hbc : optAt b r toC with
    | some q =>
      have hfalse : ¬(∀ i : ℕ, i < d + 1 → optAt b (r + s * i) toC = none) := by
        intro hcon
        have h0 := hcon 0 (by omega)
        rw [show r + s * ((0:ℕ):ℤ) = r by push_cast; ring] at h0
        rw [hbc] at h0
        exact Option.some_ne_none q h0
      rw [decide_eq_false hfalse]
    | none =>
      have harith : toR = (r + s) + s * (d:ℤ) := by rw [hr]; ring
      have hr1 : 0 ≤ r + s := by rcases hs with rfl | rfl <;> omega
      have hr2 : r + s < 8 := by rcases hs with rfl | rfl <;> omega
      rw [show toC + 0 = toC from add_zero toC]
      rw [ih fuel (by omega) (r + s) harith hr1 hr2 h0t h8t]
      show Except.ok (decide (∀ i : ℕ, i < d → optAt b (r + s + s * (i:ℤ)) toC = none)) =
        Except.ok (decide (∀ i : ℕ, i < d + 1 → optAt b (r + s * (i:ℤ)) toC = none))
      congr 1
      rw [decide_eq_decide]
      constructor
      · intro h i hi
        rcases i with _ | j
        · rw [show r + s * ((0:ℕ):ℤ) = r by push_cast; ring]
          exact hbc
        · have hj := h j (by omega)
          rw [show r + s + s * (j:ℤ) = r + s * ((j+1 : ℕ):ℤ) by push_cast; ring] at hj
          exact hj
      · intro h j hj
        have hj1 := h (j + 1) (by omega)
        rw [show r + s * ((j+1 : ℕ):ℤ) = r + s + s * (j:ℤ) by push_cast; ring] at hj1
        exact hj1

/-- The squares enumerated by a horizontal rook-loop run are exactly the
squares strictly between `f` and `t` on their shared row. -/
lemma clear_row_iff (b : Board) (f t : Sq) (hrow : f.1 = t.1) (s : ℤ) (d : ℕ)
    (hs : s = 1 ∨ s = -1) (hd : ri t.2 = (ri f.2 + s) + s * d) :
    (∀ i : ℕ, i < d → optAt b (ri t.1) (ri f.2 + s + s * i) = none) ↔ rookClear b f t := by
  have hf2 := f.2.isLt
  have ht2 := t.2.isLt
  constructor
  · intro h s' hbet
    rcases hbet with ⟨-, hs1, hb⟩ | ⟨hcol, -, -⟩
    · have hv := s'.2.isLt
      have hb' : (f.2.val < s'.2.val ∧ s'.2.val < t.2.val) ∨
          (t.2.val < s'.2.val ∧ s'.2.val < f.2.val) := by
        rcases hb with ⟨h1, h2⟩ | ⟨h1, h2⟩ <;> rw [Fin.lt_def] at h1 h2
        · exact Or.inl ⟨h1, h2⟩
        · exact Or.inr ⟨h1, h2⟩
      have hr1 : ri t.1 = ri s'.1 := by rw [hs1, hrow]
      rcases hs with rfl | rfl
      · have hfv : f.2.val < t.2.val := by simp only [ri] at hd; omega
        have hcase : f.2.val < s'.2.val ∧ s'.2.val < t.2.val := by
          rcases hb' with hx | hx <;> omega
        have hi : s'.2.val - f.2.val - 1 < d := by simp only [ri] at hd; omega
        have hast := h (s'.2.val - f.2.val - 1) hi
        rw [show ri f.2 + 1 + 1 * ((s'.2.val - f.2.val - 1 : ℕ):ℤ) = ri s'.2 by
          simp only [ri]; push_cast; omega] at hast
        rw [hr1, optAt_coe] at hast
        exact hast
      · have hfv : t.2.val < f.2.val := by simp only [ri] at hd; omega
        have hcase : t.2.val < s'.2.val ∧ s'.2.val < f.2.val := by
          rcases hb' with hx | hx <;> omega
        have hi : f.2.val - s'.2.val - 1 < d := by simp only [ri] at hd; omega
        have hast := h (f.2.val - s'.2.val - 1) hi
        rw [show ri f.2 + -1 + -1 * ((f.2.val - s'.2.val - 1 : ℕ):ℤ) = ri s'.2 by
          simp only [ri]; push_cast; omega] at hast
        rw [hr1, optAt_coe] at hast
        exact hast
    · exfalso
      have hcc : ri f.2 = ri t.2 := by rw [hcol]
      rcases hs with rfl | rfl <;> (simp only [ri] at hd hcc; omega)
  · intro h i hi
    have hz1 : (0:ℤ) ≤ ri f.2 + s + s * i := by
      rcases hs with rfl | rfl <;> (simp only [ri] at hd ⊢; omega)
    have hz2 : ri f.2 + s + s * (i:ℤ) < 8 := by
      rcases hs with rfl | rfl <;> (simp only [ri] at hd ⊢; omega)
    rw [optAt_eq b _ _ (ri_nonneg t.1) (ri_lt_eight t.1) hz1 hz2]
    refine h (mkFin (ri t.1) (ri_nonneg t.1) (ri_lt_eight t.1),
      mkFin (ri f.2 + s + s * i) hz1 hz2) ?_
    left
    refine ⟨hrow, ?_, ?_⟩
    · apply Fin.ext
      simp only [mkFin, ri, Int.toNat_natCast]
      rw [hrow]
    · have hmk : (mkFin (ri f.2 + s + s * i) hz1 hz2).val = (ri f.2 + s + s * (i:ℤ)).toNat := rfl
      rcases hs with rfl | rfl
      · left
        constructor <;> (rw [Fin.lt_def, hmk]; simp only [ri] at hd ⊢; omega)
      · right
        constructor <;> (rw [Fin.lt_def, hmk]; simp only [ri] at hd ⊢; omega)

/-- The squares enumerated by a vertical rook-loop run are exactly the
squares strictly between `f` and `t` on their shared column. -/
lemma clear_col_iff (b : Board) (f t : Sq) (hcol : f.2 = t.2) (s : ℤ) (d : ℕ)
    (hs : s = 1 ∨ s = -1) (hd : ri t.1 = (ri f.1 + s) + s * d) :
    (∀ i : ℕ, i < d → optAt b (ri f.1 + s + s * i) (ri t.2) = none) ↔ rookClear b f t := by
  have hf1 := f.1.isLt
  have ht1 := t.1.isLt
  constructor
  · intro h s' hbet
    rcases hbet with ⟨hrow, -, -⟩ | ⟨-, hs2, hb⟩
    · exfalso
      have hcc : ri f.1 = ri t.1 := by rw [hrow]
      rcases hs with rfl | rfl <;> (simp only [ri] at hd hcc; omega)
    · have hv := s'.1.isLt
      have hb' : (f.1.val < s'.1.val ∧ s'.1.val < t.1.val) ∨
          (t.1.val < s'.1.val ∧ s'.1.val < f.1.val) := by
        rcases hb with ⟨h1, h2⟩ | ⟨h1, h2⟩ <;> rw [Fin.lt_def] at h1 h2
        · exact Or.inl ⟨h1, h2⟩
        · exact Or.inr ⟨h1, h2⟩
      have hr2 : ri t.2 = ri s'.2 := by rw [hs2, hcol]
      rcases hs with rfl | rfl
      · have hfv : f.1.val < t.1.val := by simp only [ri] at hd; omega
        have hcase : f.1.val < s'.1.val ∧ s'.1.val < t.1.val := by
          rcases hb' with hx | hx <;> omega
        have hi : s'.1.val - f.1.val - 1 < d := by simp only [ri] at hd; omega
        have hast := h (s'.1.val - f.1.val - 1) hi
        rw [show ri f.1 + 1 + 1 * ((s'.1.val - f.1.val - 1 : ℕ):ℤ) = ri s'.1 by
          simp only [ri]; push_cast; omega] at hast
        rw [hr2, optAt_coe] at hast
        exact hast
      · have hfv : t.1.val < f.1.val := by simp only [ri] at hd; omega
        have hcase : t.1.val < s'.1.val ∧ s'.1.val < f.1.val := by
          rcases hb' with hx | hx <;> omega
        have hi : f.1.val - s'.1.val - 1 < d := by simp only [ri] at hd; omega
        have hast := h (f.1.val - s'.1.val - 1) hi
        rw [show ri f.1 + -1 + -1 * ((f.1.val - s'.1.val - 1 : ℕ):ℤ) = ri s'.1 by
          simp only [ri]; push_cast; omega] at hast
        rw [hr2, optAt_coe] at hast
        exact hast
  · intro h i hi
    have hz1 : (0:ℤ) ≤ ri f.1 + s + s * i := by
      rcases hs with rfl | rfl <;> (simp only [ri] at hd ⊢; omega)
    have hz2 : ri f.1 + s + s * (i:ℤ) < 8 := by
      rcases hs with rfl | rfl <;> (simp only [ri] at hd ⊢; omega)
    rw [optAt_eq b _ _ hz1 hz2 (ri_nonneg t.2) (ri_lt_eight t.2)]
    refine h (mkFin (ri f.1 + s + s * i) hz1 hz2,
      mkFin (ri t.2) (ri_nonneg t.2) (ri_lt_eight t.2)) ?_
    right
    refine ⟨hcol, ?_, ?_⟩
    · apply Fin.ext
      simp only [mkFin, ri, Int.toNat_natCast]
      rw [hcol]
    · have hmk : (mkFin (ri f.1 + s + s * i) hz1 hz2).val = (ri f.1 + s + s * (i:ℤ)).toNat := rfl
      rcases hs with rfl | rfl
      · left
        constructor <;> (rw [Fin.lt_def, hmk]; simp only [ri] at hd ⊢; omega)
      · right
        constructor <;> (rw [Fin.lt_def, hmk]; simp only [ri] at hd ⊢; omega)

/-- The squares enumerated by a bishop-loop run are exactly the squares
strictly between `f` and `t` on their shared diagonal. -/
lemma clear_diag_iff (b : Board) (f t : Sq) (s u : ℤ) (d : ℕ)
    (hs : s = 1 ∨ s = -1) (hu : u = 1 ∨ u = -1)
    (hdR : ri t.1 = (ri f.1 + s) + s * d) (hdC : ri t.2 = (ri f.2 + u) + u * d) :
    (∀ i : ℕ, i < d → optAt b (ri f.1 + s + s * i) (ri f.2 + u + u * i) = none) ↔
      diagClear b f t := by
  have hf1 := f.1.isLt
  have hf2 := f.2.isLt
  have ht1 := t.1.isLt
  have ht2 := t.2.isLt
  constructor
  · intro h s' hbet
    obtain ⟨hb1, hb2, habs⟩ := hbet
    have hv1 := s'.1.isLt
    have hv2 := s'.2.isLt
    have hb1' : (f.1.val < s'.1.val ∧ s'.1.val < t.1.val) ∨
        (t.1.val < s'.1.val ∧ s'.1.val < f.1.val) := by
      rcases hb1 with ⟨h1, h2⟩ | ⟨h1, h2⟩ <;> rw [Fin.lt_def] at h1 h2
      · exact Or.inl ⟨h1, h2⟩
      · exact Or.inr ⟨h1, h2⟩
    have hb2' : (f.2.val < s'.2.val ∧ s'.2.val < t.2.val) ∨
        (t.2.val < s'.2.val ∧ s'.2.val < f.2.val) := by
      rcases hb2 with ⟨h1, h2⟩ | ⟨h1, h2⟩ <;> rw [Fin.lt_def] at h1 h2
      · exact Or.inl ⟨h1, h2⟩
      · exact Or.inr ⟨h1, h2⟩
    simp only [ri] at habs
    rcases hs with rfl | rfl <;> rcases hu with rfl | rfl
    · have hfv1 : f.1.val < t.1.val := by simp only [ri] at hdR; omega
      have hfv2 : f.2.val < t.2.val := by simp only [ri] at hdC; omega
      have hcase1 : f.1.val < s'.1.val ∧ s'.1.val < t.1.val := by
        rcases hb1' with hx | hx <;> omega
      have hcase2 : f.2.val < s'.2.val ∧ s'.2.val < t.2.val := by
        rcases hb2' with hx | hx <;> omega
      have hi : s'.1.val - f.1.val - 1 < d := by simp only [ri] at hdR; omega
      have hast := h (s'.1.val - f.1.val - 1) hi
      rw [show ri f.1 + 1 + 1 * ((s'.1.val - f.1.val - 1 : ℕ):ℤ) = ri s'.1 by
            simp only [ri]; push_cast; omega,
          show ri f.2 + 1 + 1 * ((s'.1.val - f.1.val - 1 : ℕ):ℤ) = ri s'.2 by
            simp only [ri]; push_cast; omega] at hast
      rw [optAt_coe] at hast
      exact hast
    · have hfv1 : f.1.val < t.1.val := by simp only [ri] at hdR; omega
      have hfv2 : t.2.val < f.2.val := by simp only [ri] at hdC; omega
      have hcase1 : f.1.val < s'.1.val ∧ s'.1.val < t.1.val := by
        rcases hb1' with hx | hx <;> omega
      have hcase2 : t.2.val < s'.2.val ∧ s'.2.val < f.2.val := by
        rcases hb2' with hx | hx <;> omega
      have hi : s'.1.val - f.1.val - 1 < d := by simp only [ri] at hdR; omega
      have hast := h (s'.1.val - f.1.val - 1) hi
      rw [show ri f.1 + 1 + 1 * ((s'.1.val - f.1.val - 1 : ℕ):ℤ) = ri s'.1 by
            simp only [ri]; push_cast; omega,
          show ri f.2 + -1 + -1 * ((s'.1.val - f.1.val - 1 : ℕ):ℤ) = ri s'.2 by
            simp only [ri]; push_cast; omega] at hast
      rw [optAt_coe] at hast
      exact hast
    · have hfv1 : t.1.val < f.1.val := by simp only [ri] at hdR; omega
      have hfv2 : f.2.val < t.2.val := by simp only [ri] at hdC; omega
      have hcase1 : t.1.val < s'.1.val ∧ s'.1.val < f.1.val := by
        rcases hb1' with hx | hx <;> omega
      have hcase2 : f.2.val < s'.2.val ∧ s'.2.val < t.2.val := by
        rcases hb2' with hx | hx <;> omega
      have hi : f.1.val - s'.1.val - 1 < d := by simp only [ri] at hdR; omega
      have hast := h (f.1.val - s'.1.val - 1) hi
      rw [show ri f.1 + -1 + -1 * ((f.1.val - s'.1.val - 1 : ℕ):ℤ) = ri s'.1 by
            simp only [ri]; push_cast; omega,
          show ri f.2 + 1 + 1 * ((f.1.val - s'.1.val - 1 : ℕ):ℤ) = ri s'.2 by
            simp only [ri]; push_cast; omega] at hast
      rw [optAt_coe] at hast
      exact hast
    · have hfv1 : t.1.val < f.1.val := by simp only [ri] at hdR; omega
      have hfv2 : t.2.val < f.2.val := by simp only [ri] at hdC; omega
      have hcase1 : t.1.val < s'.1.val ∧ s'.1.val < f.1.val := by
        rcases hb1' with hx | hx <;> omega
      have hcase2 : t.2.val < s'.2.val ∧ s'.2.val < f.2.val := by
        rcases hb2' with hx | hx <;> omega
      have hi : f.1.val - s'.1.val - 1 < d := by simp only [ri] at hdR; omega
      have hast := h (f.1.val - s'.1.val - 1) hi
      rw [show ri f.1 + -1 + -1 * ((f.1.val - s'.1.val - 1 : ℕ):ℤ) = ri s'.1 by
            simp only [ri]; push_cast; omega,
          show ri f.2 + -1 + -1 * ((f.1.val - s'.1.val - 1 : ℕ):ℤ) = ri s'.2 by
            simp only [ri]; push_cast; omega] at hast
      rw [optAt_coe] at hast
      exact hast
  · intro h i hi
    have hz11 : (0:ℤ) ≤ ri f.1 + s + s * i := by
      rcases hs with rfl | rfl <;> (simp only [ri] at hdR ⊢; omega)
    have hz12 : ri f.1 + s + s * (i:ℤ) < 8 := by
      rcases hs with rfl | rfl <;> (simp only [ri] at hdR ⊢; omega)
    have hz21 : (0:ℤ) ≤ ri f.2 + u + u * i := by
      rcases hu with rfl | rfl <;> (simp only [ri] at hdC ⊢; omega)
    have hz22 : ri f.2 + u + u * (i:ℤ) < 8 := by
      rcases hu with rfl | rfl <;> (simp only [ri] at hdC ⊢; omega)
    rw [optAt_eq b _ _ hz11 hz12 hz21 hz22]
    refine h (mkFin (ri f.1 + s + s * i) hz11 hz12,
      mkFin (ri f.2 + u + u * i) hz21 hz22) ?_
    have hmk1 : (mkFin (ri f.1 + s + s * i) hz11 hz12).val = (ri f.1 + s + s * (i:ℤ)).toNat := rfl
    have hmk2 : (mkFin (ri f.2 + u + u * i) hz21 hz22).val = (ri f.2 + u + u * (i:ℤ)).toNat := rfl
    refine ⟨?_, ?_, ?_⟩
    · rcases hs with rfl | rfl
      · left
        constructor <;> (rw [Fin.lt_def, hmk1]; simp only [ri] at hdR ⊢; omega)
      · right
        constructor <;> (rw [Fin.lt_def, hmk1]; simp only [ri] at hdR ⊢; omega)
    · rcases hu with rfl | rfl
      · left
        constructor <;> (rw [Fin.lt_def, hmk2]; simp only [ri] at hdC ⊢; omega)
      · right
        constructor <;> (rw [Fin.lt_def, hmk2]; simp only [ri] at hdC ⊢; omega)
    · show (ri (mkFin (ri f.1 + s + s * i) hz11 hz12) - ri f.1).natAbs =
        (ri (mkFin (ri f.2 + u + u * i) hz21 hz22) - ri f.2).natAbs
      rw [ri_mkFin, ri_mkFin]
      rcases hs with rfl | rfl <;> rcases hu with rfl | rfl <;> (simp only [ri]; omega)

/-- Diagonal run of the bishop loop: starting `d` squares short of the target
on the diagonal, it terminates and reports whether every remaining
intermediate square is empty. -/
lemma bishScanG_diag (get : ℤ → ℤ → Except Unit (Option Piece)) (b : Board)
    (hget : GetterFor get b) (toR toC : ℤ)
    (s u : ℤ) (hs : s = 1 ∨ s = -1) (hu : u = 1 ∨ u = -1) :
    ∀ d fuel : ℕ, d < fuel → ∀ r c : ℤ,
      toR = r + s * d → toC = c + u * d → 0 ≤ r → r < 8 → 0 ≤ c → c < 8 →
      0 ≤ toR → toR < 8 → 0 ≤ toC → toC < 8 →
      bishScanG get toR toC s u fuel r c =
        .ok (decide (∀ i : ℕ, i < d → optAt b (r + s * i) (c + u * i) = none)) := by
  intro d
  induction d with
  | zero =>
    intro fuel hfuel r c hr hc h0r h8r h0c h8c h0tr h8tr h0tc h8tc
    obtain ⟨fuel, rfl⟩ : ∃ k, fuel = k + 1 := ⟨fuel - 1, by omega⟩
    have hreq : toR = r := by simpa using hr
    subst hreq
    simp [bishScanG]
  | succ d ih =>
    intro fuel hfuel r c hr hc h0r h8r h0c h8c h0tr h8tr h0tc h8tc
    obtain ⟨fuel, rfl⟩ : ∃ k, fuel = k + 1 := ⟨fuel - 1, by omega⟩
    push_cast at hr hc
    have hne : ¬(r = toR ∨ c = toC) := by
      rcases hs with rfl | rfl <;> rcases hu with rfl | rfl <;>
        (intro hor; rcases hor with h | h <;> omega)
    simp only [bishScanG]
    rw [if_neg hne, hget r c h0r h8r h0c h8c]
    cases hbc : optAt b r c with
    | some q =>
      have hfalse : ¬(∀ i : ℕ, i < d + 1 → optAt b (r + s * i) (c + u * i) = none) := by
        intro hcon
        have h0 := hcon 0 (by omega)
        rw [show r + s * ((0:ℕ):ℤ) = r by push_cast; ring,
            show c + u * ((0:ℕ):ℤ) = c by push_cast; ring] at h0
        rw [hbc] at h0
        exact Option.some_ne_none q h0
      rw [decide_eq_false hfalse]
    | none =>
      have harithR : toR = (r + s) + s * (d:ℤ) := by rw [hr]; ring
      have harithC : toC = (c + u) + u * (d:ℤ) := by rw [hc]; ring
      have hr1 : 0 ≤ r + s := by rcases hs with rfl | rfl <;> omega
      have hr2 : r + s < 8 := by rcases hs with rfl | rfl <;> omega
      have hc1 : 0 ≤ c + u := by rcases hu with rfl | rfl <;> omega
      have hc2 : c + u < 8 := by rcases hu with rfl | rfl <;> omega
      rw [ih fuel (by omega) (r + s) (c + u) harithR harithC hr1 hr2 hc1 hc2 h0tr h8tr h0tc h8tc]
      show Except.ok (decide (∀ i : ℕ, i < d → optAt b (r + s + s * (i:ℤ)) (c + u + u * (i:ℤ)) = none)) =
        Except.ok (decide (∀ i : ℕ, i < d + 1 → optAt b (r + s * (i:ℤ)) (c + u * (i:ℤ)) = none))
      congr 1
      rw [decide_eq_decide]
      constructor
      · intro h i hi
        rcases i with _ | j
        · rw [show r + s * ((0:ℕ):ℤ) = r by push_cast; ring,
              show c + u * ((0:ℕ):ℤ) = c by push_cast; ring]
          exact hbc
        · have hj := h j (by omega)
          rw [show r + s + s * (j:ℤ) = r + s * ((j+1 : ℕ):ℤ) by push_cast; ring,
              show c + u + u * (j:ℤ) = c + u * ((j+1 : ℕ):ℤ) by push_cast; ring] at hj
          exact hj
      · intro h j hj
        have hj1 := h (j + 1) (by omega)
        rw [show r + s * ((j+1 : ℕ):ℤ) = r + s + s * (j:ℤ) by push_cast; ring,
            show c + u * ((j+1 : ℕ):ℤ) = c + u + u * (j:ℤ) by push_cast; ring] at hj1
        exact hj1

/-! ## Evaluation of the sliding-piece movement blocks -/

lemma rookMoveG_self (get : ℤ → ℤ → Except Unit (Option Piece)) (f : Sq) :
    rookMoveG get f f = .ok true := by
  simp [rookMoveG, rookScanG]

lemma queenMoveG_self (get : ℤ → ℤ → Except Unit (Option Piece)) (f : Sq) :
    queenMoveG get f f = .ok true := by
  simp [queenMoveG, rookMoveG_self]

/-- For distinct squares the rook block returns exactly "aligned and every
square strictly between is empty". -/
lemma rookMoveG_eval (get : ℤ → ℤ → Except Unit (Option Piece)) (b : Board)
    (hget : GetterFor get b) (f t : Sq) (hft : f ≠ t) :
    rookMoveG get f t = .ok (decide (rookLine f t ∧ rookClear b f t)) := by
  by_cases hr : ri f.1 = ri t.1
  · by_cases hc : ri f.2 = ri t.2
    · exact absurd (Prod.ext_iff.mpr ⟨ri_inj.mp hr, ri_inj.mp hc⟩) hft
    · by_cases hgt : ri t.2 > ri f.2
      · simp only [rookMoveG, hr, hc, hgt, eq_self_iff_true, true_or, if_true, if_false,
          ite_true, ite_false, add_zero]
        have hd : ri t.2 = (ri f.2 + 1) + 1 * ((t.2.val - f.2.val - 1 : ℕ):ℤ) := by
          simp only [ri] at hgt ⊢
          push_cast
          omega
        rw [rookScanG_row get b hget (ri t.1) (ri t.2) (ri_nonneg t.1) (ri_lt_eight t.1) 1
            (Or.inl rfl) (t.2.val - f.2.val - 1) 16 (by have := t.2.isLt; omega)
            (ri f.2 + 1) hd (by have := ri_nonneg f.2; omega)
            (by have := ri_lt_eight t.2; omega) (ri_nonneg t.2) (ri_lt_eight t.2)]
        congr 1
        rw [decide_eq_decide]
        have hiff := clear_row_iff b f t (ri_inj.mp hr) 1 (t.2.val - f.2.val - 1)
          (Or.inl rfl) hd
        exact ⟨fun hh => ⟨Or.inl (ri_inj.mp hr), hiff.mp hh⟩, fun hh => hiff.mpr hh.2⟩
      · simp only [rookMoveG, hr, hc, hgt, eq_self_iff_true, true_or, if_true, if_false,
          ite_true, ite_false, add_zero]
        have hlt : ri t.2 < ri f.2 := by
          rcases lt_or_eq_of_le (not_lt.mp hgt) with h | h
          · exact h
          · exact absurd h.symm hc
        have hd : ri t.2 = (ri f.2 + -1) + -1 * ((f.2.val - t.2.val - 1 : ℕ):ℤ) := by
          simp only [ri] at hlt ⊢
          push_cast
          omega
        rw [rookScanG_row get b hget (ri t.1) (ri t.2) (ri_nonneg t.1) (ri_lt_eight t.1) (-1)
            (Or.inr rfl) (f.2.val - t.2.val - 1) 16 (by have := f.2.isLt; omega)
            (ri f.2 + -1) hd (by simp only [ri] at hlt ⊢; have := ri_nonneg t.2; simp only [ri] at this; omega)
            (by have := ri_lt_eight f.2; omega) (ri_nonneg t.2) (ri_lt_eight t.2)]
        congr 1
        rw [decide_eq_decide]
        have hiff := clear_row_iff b f t (ri_inj.mp hr) (-1) (f.2.val - t.2.val - 1)
          (Or.inr rfl) hd
        exact ⟨fun hh => ⟨Or.inl (ri_inj.mp hr), hiff.mp hh⟩, fun hh => hiff.mpr hh.2⟩
  · by_cases hc : ri f.2 = ri t.2
    · by_cases hgt : ri t.1 > ri f.1
      · simp only [rookMoveG, hr, hc, hgt, eq_self_iff_true, or_true, if_true, if_false,
          ite_true, ite_false, add_zero]
        have hd : ri t.1 = (ri f.1 + 1) + 1 * ((t.1.val - f.1.val - 1 : ℕ):ℤ) := by
          simp only [ri] at hgt ⊢
          push_cast
          omega
        rw [rookScanG_col get b hget (ri t.1) (ri t.2) (ri_nonneg t.2) (ri_lt_eight t.2) 1
            (Or.inl rfl) (t.1.val - f.1.val - 1) 16 (by have := t.1.isLt; omega)
            (ri f.1 + 1) hd (by have := ri_nonneg f.1; omega)
            (by have := ri_lt_eight t.1; omega) (ri_nonneg t.1) (ri_lt_eight t.1)]
        congr 1
        rw [decide_eq_decide]
        have hiff := clear_col_iff b f t (ri_inj.mp hc) 1 (t.1.val - f.1.val - 1)
          (Or.inl rfl) hd
        exact ⟨fun hh => ⟨Or.inr (ri_inj.mp hc), hiff.mp hh⟩, fun hh => hiff.mpr hh.2⟩
      · simp only [rookMoveG, hr, hc, hgt, eq_self_iff_true, or_true, if_true, if_false,
          ite_true, ite_false, add_zero]
        have hlt : ri t.1 < ri f.1 := by
          rcases lt_or_eq_of_le (not_lt.mp hgt) with h | h
          · exact h
          · exact absurd h.symm hr
        have hd : ri t.1 = (ri f.1 + -1) + -1 * ((f.1.val - t.1.val - 1 : ℕ):ℤ) := by
          simp only [ri] at hlt ⊢
          push_cast
          omega
        rw [rookScanG_col get b hget (ri t.1) (ri t.2) (ri_nonneg t.2) (ri_lt_eight t.2) (-1)
            (Or.inr rfl) (f.1.val - t.1.val - 1) 16 (by have := f.1.isLt; omega)
            (ri f.1 + -1) hd
            (by simp only [ri] at hlt ⊢; have := ri_nonneg t.1; simp only [ri] at this; omega)
            (by have := ri_lt_eight f.1; omega) (ri_nonneg t.1) (ri_lt_eight t.1)]
        congr 1
        rw [decide_eq_decide]
        have hiff := clear_col_iff b f t (ri_inj.mp hc) (-1) (f.1.val - t.1.val - 1)
          (Or.inr rfl) hd
        exact ⟨fun hh => ⟨Or.inr (ri_inj.mp hc), hiff.mp hh⟩, fun hh => hiff.mpr hh.2⟩
    · have hline : ¬(ri f.1 = ri t.1 ∨ ri f.2 = ri t.2) := by tauto
      simp only [rookMoveG, if_neg hline]
      have hnot : ¬(rookLine f t ∧ rookClear b f t) := by
        intro hcon
        rcases hcon.1 with h | h
        · exact hr (by rw [h])
        · exact hc (by rw [h])
      rw [decide_eq_false hnot]

/-- For distinct squares the bishop block returns exactly "on a diagonal and
every square strictly between is empty". -/
lemma bishMoveG_eval (get : ℤ → ℤ → Except Unit (Option Piece)) (b : Board)
    (hget : GetterFor get b) (f t : Sq) (hft : f ≠ t) :
    bishMoveG get f t = .ok (decide (diagLine f t ∧ diagClear b f t)) := by
  by_cases hdg : (ri f.1 - ri t.1).natAbs = (ri f.2 - ri t.2).natAbs
  case neg =>
    simp only [bishMoveG, if_neg hdg]
    have hnot : ¬(diagLine f t ∧ diagClear b f t) := fun hcon => hdg hcon.1
    rw [decide_eq_false hnot]
  case pos =>
    have h1 : ri f.1 ≠ ri t.1 := by
      intro he
      apply hft
      refine Prod.ext_iff.mpr ⟨ri_inj.mp he, ri_inj.mp ?_⟩
      rw [he] at hdg
      omega
    have h2 : ri f.2 ≠ ri t.2 := by
      intro he
      apply hft
      refine Prod.ext_iff.mpr ⟨ri_inj.mp ?_, ri_inj.mp he⟩
      rw [he] at hdg
      omega
    have hLine : diagLine f t := hdg
    by_cases hgr : ri t.1 > ri f.1 <;> by_cases hgc : ri t.2 > ri f.2
    · simp only [bishMoveG, hdg, eq_self_iff_true, if_true, hgr, hgc, ite_true]
      have hdR : ri t.1 = (ri f.1 + 1) + 1 * ((t.1.val - f.1.val - 1 : ℕ):ℤ) := by
        simp only [ri] at hgr ⊢
        push_cast
        omega
      have hdC : ri t.2 = (ri f.2 + 1) + 1 * ((t.1.val - f.1.val - 1 : ℕ):ℤ) := by
        simp only [ri] at hgr hgc hdg ⊢
        push_cast
        omega
      rw [bishScanG_diag get b hget (ri t.1) (ri t.2) 1 1 (Or.inl rfl) (Or.inl rfl)
          (t.1.val - f.1.val - 1) 16 (by have := t.1.isLt; omega)
          (ri f.1 + 1) (ri f.2 + 1) hdR hdC
          (by have := ri_nonneg f.1; omega) (by have := ri_lt_eight t.1; simp only [ri] at hgr ⊢; omega)
          (by have := ri_nonneg f.2; omega) (by have := ri_lt_eight t.2; simp only [ri] at hgc ⊢; omega)
          (ri_nonneg t.1) (ri_lt_eight t.1) (ri_nonneg t.2) (ri_lt_eight t.2)]
      congr 1
      rw [decide_eq_decide]
      have hiff := clear_diag_iff b f t 1 1 (t.1.val - f.1.val - 1)
        (Or.inl rfl) (Or.inl rfl) hdR hdC
      exact ⟨fun hh => ⟨hLine, hiff.mp hh⟩, fun hh => hiff.mpr hh.2⟩
    · have hlc : ri t.2 < ri f.2 := lt_of_le_of_ne (not_lt.mp hgc) (fun he => h2 he.symm)
      simp only [bishMoveG, hdg, eq_self_iff_true, if_true, hgr, hgc, ite_true, ite_false]
      have hdR : ri t.1 = (ri f.1 + 1) + 1 * ((t.1.val - f.1.val - 1 : ℕ):ℤ) := by
        simp only [ri] at hgr ⊢
        push_cast
        omega
      have hdC : ri t.2 = (ri f.2 + -1) + -1 * ((t.1.val - f.1.val - 1 : ℕ):ℤ) := by
        simp only [ri] at hgr hlc hdg ⊢
        push_cast
        omega
      rw [bishScanG_diag get b hget (ri t.1) (ri t.2) 1 (-1) (Or.inl rfl) (Or.inr rfl)
          (t.1.val - f.1.val - 1) 16 (by have := t.1.isLt; omega)
          (ri f.1 + 1) (ri f.2 + -1) hdR hdC
          (by have := ri_nonneg f.1; omega) (by have := ri_lt_eight t.1; simp only [ri] at hgr ⊢; omega)
          (by have := ri_nonneg t.2; simp only [ri] at hlc ⊢; omega) (by have := ri_lt_eight f.2; omega)
          (ri_nonneg t.1) (ri_lt_eight t.1) (ri_nonneg t.2) (ri_lt_eight t.2)]
      congr 1
      rw [decide_eq_decide]
      have hiff := clear_diag_iff b f t 1 (-1) (t.1.val - f.1.val - 1)
        (Or.inl rfl) (Or.inr rfl) hdR hdC
      exact ⟨fun hh => ⟨hLine, hiff.mp hh⟩, fun hh => hiff.mpr hh.2⟩
    · have hlr : ri t.1 < ri f.1 := lt_of_le_of_ne (not_lt.mp hgr) (fun he => h1 he.symm)
      simp only [bishMoveG, hdg, eq_self_iff_true, if_true, hgr, hgc, ite_true, ite_false]
      have hdR : ri t.1 = (ri f.1 + -1) + -1 * ((f.1.val - t.1.val - 1 : ℕ):ℤ) := by
        simp only [ri] at hlr ⊢
        push_cast
        omega
      have hdC : ri t.2 = (ri f.2 + 1) + 1 * ((f.1.val - t.1.val - 1 : ℕ):ℤ) := by
        simp only [ri] at hlr hgc hdg ⊢
        push_cast
        omega
      rw [bishScanG_diag get b hget (ri t.1) (ri t.2) (-1) 1 (Or.inr rfl) (Or.inl rfl)
          (f.1.val - t.1.val - 1) 16 (by have := f.1.isLt; omega)
          (ri f.1 + -1) (ri f.2 + 1) hdR hdC
          (by have := ri_nonneg t.1; simp only [ri] at hlr ⊢; omega) (by have := ri_lt_eight f.1; omega)
          (by have := ri_nonneg f.2; omega) (by have := ri_lt_eight t.2; simp only [ri] at hgc ⊢; omega)
          (ri_nonneg t.1) (ri_lt_eight t.1) (ri_nonneg t.2) (ri_lt_eight t.2)]
      congr 1
      rw [decide_eq_decide]
      have hiff := clear_diag_iff b f t (-1) 1 (f.1.val - t.1.val - 1)
        (Or.inr rfl) (Or.inl rfl) hdR hdC
      exact ⟨fun hh => ⟨hLine, hiff.mp hh⟩, fun hh => hiff.mpr hh.2⟩
    · have hlr : ri t.1 < ri f.1 := lt_of_le_of_ne (not_lt.mp hgr) (fun he => h1 he.symm)
      have hlc : ri t.2 < ri f.2 := lt_of_le_of_ne (not_lt.mp hgc) (fun he => h2 he.symm)
      simp only [bishMoveG, hdg, eq_self_iff_true, if_true, hgr, hgc, ite_false]
      have hdR : ri t.1 = (ri f.1 + -1) + -1 * ((f.1.val - t.1.val - 1 : ℕ):ℤ) := by
        simp only [ri] at hlr ⊢
        push_cast
        omega
      have hdC : ri t.2 = (ri f.2 + -1) + -1 * ((f.1.val - t.1.val - 1 : ℕ):ℤ) := by
        simp only [ri] at hlr hlc hdg ⊢
        push_cast
        omega
      rw [bishScanG_diag get b hget (ri t.1) (ri t.2) (-1) (-1) (Or.inr rfl) (Or.inr rfl)
          (f.1.val - t.1.val - 1) 16 (by have := f.1.isLt; omega)
          (ri f.1 + -1) (ri f.2 + -1) hdR hdC
          (by have := ri_nonneg t.1; simp only [ri] at hlr ⊢; omega) (by have := ri_lt_eight f.1; omega)
          (by have := ri_nonneg t.2; simp only [ri] at hlc ⊢; omega) (by have := ri_lt_eight f.2; omega)
          (ri_nonneg t.1) (ri_lt_eight t.1) (ri_nonneg t.2) (ri_lt_eight t.2)]
      congr 1
      rw [decide_eq_decide]
      have hiff := clear_diag_iff b f t (-1) (-1) (f.1.val - t.1.val - 1)
        (Or.inr rfl) (Or.inr rfl) hdR hdC
      exact ⟨fun hh => ⟨hLine, hiff.mp hh⟩, fun hh => hiff.mpr hh.2⟩

/-- A move between distinct squares cannot be both rook-aligned and
diagonal. -/
lemma not_rookLine_and_diagLine (f t : Sq) (hft : f ≠ t) :
    ¬(rookLine f t ∧ diagLine f t) := by
  rintro ⟨hl, hd⟩
  apply hft
  unfold diagLine at hd
  rcases hl with h | h
  · have h1 : ri f.1 = ri t.1 := by rw [h]
    refine Prod.ext_iff.mpr ⟨h, ri_inj.mp ?_⟩
    omega
  · have h2 : ri f.2 = ri t.2 := by rw [h]
    refine Prod.ext_iff.mpr ⟨ri_inj.mp ?_, h⟩
    omega

/-- For distinct squares the queen block returns the union of the rook and
bishop rules. -/
lemma queenMoveG_eval (get : ℤ → ℤ → Except Unit (Option Piece)) (b : Board)
    (hget : GetterFor get b) (f t : Sq) (hft : f ≠ t) :
    queenMoveG get f t =
      .ok (decide ((rookLine f t ∧ rookClear b f t) ∨ (diagLine f t ∧ diagClear b f t))) := by
  unfold queenMoveG
  by_cases hline : ri f.1 = ri t.1 ∨ ri f.2 = ri t.2
  · rw [if_pos hline, rookMoveG_eval get b hget f t hft]
    congr 1
    rw [decide_eq_decide]
    constructor
    · exact Or.inl
    · intro hh
      rcases hh with hh | hh
      · exact hh
      · exfalso
        have hrl : rookLine f t := by
          rcases hline with h | h
          · exact Or.inl (ri_inj.mp h)
          · exact Or.inr (ri_inj.mp h)
        exact not_rookLine_and_diagLine f t hft ⟨hrl, hh.1⟩
  · rw [if_neg hline, bishMoveG_eval get b hget f t hft]
    congr 1
    rw [decide_eq_decide]
    constructor
    · exact Or.inr
    · intro hh
      rcases hh with hh | hh
      · exfalso
        rcases hh.1 with h | h
        · exact hline (Or.inl (by rw [h]))
        · exact hline (Or.inr (by rw [h]))
      · exact hh

/-! ## Attack oracle, check detection, enumeration and the turn handler -/

/-- The 64 squares in the row-major order of the source's nested
`for (row...) for (col...)` loops. -/
def allSquares : List Sq :=
  (List.finRange 8).flatMap fun r => (List.finRange 8).map fun c => (r, c)

lemma mem_allSquares (s : Sq) : s ∈ allSquares := by
  revert s
  decide

/-- Source `findKing(board, color)`: the first square in row-major order
holding the requested king, if any. -/
def findKing (b : Board) (color : Color) : Option Sq :=
  allSquares.find? fun s => decide (b s.1 s.2 = some ⟨.king, color⟩)

/-- The scan of `isSquareAttacked` over an explicit list of candidate
attacker squares; a thrown exception aborts the whole scan. -/
def attackScan (b : Board) (tr tc : Fin 8) (byColor : Color) :
    List Sq → Except Unit Bool
  | [] => .ok false
  | s :: rest =>
    match b s.1 s.2 with
    | none => attackScan b tr tc byColor rest
    | some p =>
      if p.color = byColor then
        match isLegalMove s (tr, tc) p b true with
        | .error e => .error e
        | .ok true => .ok true
        | .ok false => attackScan b tr tc byColor rest
      else attackScan b tr tc byColor rest

/-- Source `isSquareAttacked(board, row, col, byColor)`. -/
def isSquareAttacked (b : Board) (tr tc : Fin 8) (byColor : Color) : Except Unit Bool :=
  attackScan b tr tc byColor allSquares

/-- Source `isInCheck(board, color)`. -/
def isInCheck (b : Board) (color : Color) : Except Unit Bool :=
  match findKing b color with
  | none => .ok false
  | some k => isSquareAttacked b k.1 k.2 color.opp

/-- Source board-copy simulation: `newBoard[to] = piece; newBoard[from] = ''`
(the `from` clear is applied last, so it wins when the squares coincide). -/
def simMove (b : Board) (f t : Sq) (p : Piece) : Board :=
  fun r c =>
    if r = f.1 ∧ c = f.2 then none
    else if r = t.1 ∧ c = t.2 then some p
    else b r c

/-- Inner destination loop of `hasAnyLegalMoves` for a fixed piece. -/
def hlmInner (b : Board) (color : Color) (f : Sq) (p : Piece) :
    List Sq → Except Unit Bool
  | [] => .ok false
  | t :: rest =>
    if f = t then hlmInner b color f p rest
    else
      match b t.1 t.2 with
      | some q =>
        if q.color = color then hlmInner b color f p rest
        else
          match isLegalMove f t p b false with
          | .error e => .error e
          | .ok false => hlmInner b color f p rest
          | .ok true =>
            match isInCheck (simMove b f t p) color with
            | .error e => .error e
            | .ok true => hlmInner b color f p rest
            | .ok false => .ok true
      | none =>
        match isLegalMove f t p b false with
        | .error e => .error e
        | .ok false => hlmInner b color f p rest
        | .ok true =>
          match isInCheck (simMove b f t p) color with
          | .error e => .error e
          | .ok true => hlmInner b color f p rest
          | .ok false => .ok true

/-- Outer origin loop of `hasAnyLegalMoves`. -/
def hlmOuter (b : Board) (color : Color) : List Sq → Except Unit Bool
  | [] => .ok false
  | f :: rest =>
    match b f.1 f.2 with
    | none => hlmOuter b color rest
    | some p =>
      if p.color = color then
        match hlmInner b color f p allSquares with
        | .error e => .error e
        | .ok true => .ok true
        | .ok false => hlmOuter b color rest
      else hlmOuter b color rest

/-- Source `hasAnyLegalMoves(board, color)`. -/
def hasAnyLegalMoves (b : Board) (color : Color) : Except Unit Bool :=
  hlmOuter b color allSquares

/-- Destination loop of `getPossibleMoves`, collecting the surviving
destinations in scan order. -/
def gpmScan (b : Board) (player : Color) (f : Sq) (p : Piece) :
    List Sq → Except Unit (List Sq)
  | [] => .ok []
  | t :: rest =>
    if f = t then gpmScan b player f p rest
    else
      match b t.1 t.2 with
      | some q =>
        if q.color = player then gpmScan b player f p rest
        else
          match isLegalMove f t p b false with
          | .error e => .error e
          | .ok false => gpmScan b player f p rest
          | .ok true =>
            match isInCheck (simMove b f t p) player with
            | .error e => .error e
            | .ok true => gpmScan b player f p rest
            | .ok false =>
              match gpmScan b player f p rest with
              | .error e => .error e
              | .ok ms => .ok (t :: ms)
      | none =>
        match isLegalMove f t p b false with
        | .error e => .error e
        | .ok false => gpmScan b player f p rest
        | .ok true =>
          match isInCheck (simMove b f t p) player with
          | .error e => .error e
          | .ok true => gpmScan b player f p rest
          | .ok false =>
            match gpmScan b player f p rest with
            | .error e => .error e
            | .ok ms => .ok (t :: ms)

/-- Source `getPossibleMoves(row, col)`, with the globals `gameBoard` and
`currentPlayer` passed explicitly. -/
def getPossibleMoves (b : Board) (player : Color) (f : Sq) : Except Unit (List Sq) :=
  match b f.1 f.2 with
  | none => .ok []
  | some p => gpmScan b player f p allSquares

/-- The position the turn handler operates on: the globals `gameBoard` and
`currentPlayer`. -/
structure GameSt where
  board : Board
  player : Color

/-- One complete move attempt through `handleSquareClick`: selecting `f`
(which requires a piece of the side to move) and then clicking `t`.  The
result carries the new position and whether the checkmate alert fired;
`.error ()` is the `IllegalMove` outcome, in which the source leaves
`gameBoard` and `currentPlayer` untouched and merely clears the selection. -/
def applyMove (g : GameSt) (f t : Sq) : Except Unit (GameSt × Bool) :=
  match g.board f.1 f.2 with
  | none => .error ()
  | some p =>
    if p.color = g.player then
      if f = t then .error ()
      else
        let targetOK : Bool :=
          match g.board t.1 t.2 with
          | none => true
          | some q => decide (q.color = g.player.opp)
        if targetOK then
          match isLegalMove f t p g.board false with
          | .error e => .error e
          | .ok false => .error ()
          | .ok true =>
            let nb := simMove g.board f t p
            match isInCheck nb g.player with
            | .error e => .error e
            | .ok true => .error ()
            | .ok false =>
              match isInCheck nb g.player.opp with
              | .error e => .error e
              | .ok chk =>
                if chk then
                  match hasAnyLegalMoves nb g.player.opp with
                  | .error e => .error e
                  | .ok any => .ok (⟨nb, g.player.opp⟩, !any)
                else .ok (⟨nb, g.player.opp⟩, false)
        else .error ()
    else .error ()

/-- Repeated move attempts: a failed attempt leaves the position unchanged
and the caller simply tries again (spec §7). -/
def applyMoves (g : GameSt) : List (Sq × Sq) → GameSt
  | [] => g
  | (f, t) :: rest =>
    match applyMove g f t with
    | .ok (g2, _) => applyMoves g2 rest
    | .error _ => applyMoves g rest

/-! ## Absence of faults away from the bishop self-query -/

lemma Color.opp_ne (c : Color) : c.opp ≠ c := by cases c <;> decide

lemma ilm_rook (get : ℤ → ℤ → Except Unit (Option Piece)) (f t : Sq) (p : Piece) (b : Board)
    (m : Bool) (hk : p.kind = .rook) : isLegalMoveWith get f t p b m = rookMoveG get f t := by
  obtain ⟨k, cl⟩ := p
  cases hk
  rfl

lemma ilm_bishop (get : ℤ → ℤ → Except Unit (Option Piece)) (f t : Sq) (p : Piece) (b : Board)
    (m : Bool) (hk : p.kind = .bishop) : isLegalMoveWith get f t p b m = bishMoveG get f t := by
  obtain ⟨k, cl⟩ := p
  cases hk
  rfl

lemma ilm_queen (get : ℤ → ℤ → Except Unit (Option Piece)) (f t : Sq) (p : Piece) (b : Board)
    (m : Bool) (hk : p.kind = .queen) : isLegalMoveWith get f t p b m = queenMoveG get f t := by
  obtain ⟨k, cl⟩ := p
  cases hk
  rfl

/-- An if-chain of `.ok` results is an `.ok` result. -/
lemma exists_ok_chain (c1 c2 c3 : Prop) [Decidable c1] [Decidable c2] [Decidable c3] :
    ∃ v, (if c1 then Except.ok true
          else if c2 then Except.ok true
          else if c3 then Except.ok true
          else (Except.ok false : Except Unit Bool)) = .ok v := by
  by_cases h1 : c1 <;> by_cases h2 : c2 <;> by_cases h3 : c3 <;> simp [h1, h2, h3]

/-- The pawn branches never consult the loop reader. -/
lemma ilm_pawn_get_irrel (get get2 : ℤ → ℤ → Except Unit (Option Piece)) (f t : Sq)
    (cl : Color) (b : Board) (m : Bool) :
    isLegalMoveWith get f t ⟨.pawn, cl⟩ b m = isLegalMoveWith get2 f t ⟨.pawn, cl⟩ b m := by
  cases cl <;> rfl

lemma ilm_pawn_ok (get : ℤ → ℤ → Except Unit (Option Piece)) (f t : Sq) (cl : Color)
    (b : Board) (m : Bool) :
    ∃ v, isLegalMoveWith get f t ⟨.pawn, cl⟩ b m = .ok v := by
  cases cl
  · exact exists_ok_chain _ _ _
  · exact exists_ok_chain _ _ _

lemma ilm_knight_king_ok (get : ℤ → ℤ → Except Unit (Option Piece)) (f t : Sq) (p : Piece)
    (b : Board) (m : Bool) (hk : p.kind = .knight ∨ p.kind = .king) :
    ∃ v, isLegalMoveWith get f t p b m = .ok v := by
  obtain ⟨k, cl⟩ := p
  rcases hk with hk | hk <;> cases hk
  · exact ⟨_, rfl⟩
  · exact ⟨_, rfl⟩

/-- Between distinct squares the evaluator never faults, whatever the piece. -/
lemma ilm_ok_of_ne (get : ℤ → ℤ → Except Unit (Option Piece)) (b : Board)
    (hget : GetterFor get b) (f t : Sq) (p : Piece) (m : Bool) (hft : f ≠ t) :
    ∃ v, isLegalMoveWith get f t p b m = .ok v := by
  obtain ⟨k, cl⟩ := p
  cases k
  · exact ilm_pawn_ok get f t cl b m
  · rw [ilm_rook get f t ⟨.rook, cl⟩ b m rfl, rookMoveG_eval get b hget f t hft]
    exact ⟨_, rfl⟩
  · exact ilm_knight_king_ok get f t ⟨.knight, cl⟩ b m (Or.inl rfl)
  · rw [ilm_bishop get f t ⟨.bishop, cl⟩ b m rfl, bishMoveG_eval get b hget f t hft]
    exact ⟨_, rfl⟩
  · rw [ilm_queen get f t ⟨.queen, cl⟩ b m rfl, queenMoveG_eval get b hget f t hft]
    exact ⟨_, rfl⟩
  · exact ilm_knight_king_ok get f t ⟨.king, cl⟩ b m (Or.inr rfl)

lemma isLegalMove_ok_of_ne (b : Board) (f t : Sq) (p : Piece) (m : Bool) (hft : f ≠ t) :
    ∃ v, isLegalMove f t p b m = .ok v :=
  ilm_ok_of_ne (getI b) b (getterFor_getI b) f t p m hft

/-- The attack scan cannot fault as long as the queried square does not hold
a piece of the attacking color (the only way to reach the bishop
origin-equals-destination walk). -/
lemma attackScan_ok (b : Board) (tr tc : Fin 8) (byColor : Color)
    (hsafe : ∀ p, b tr tc = some p → p.color ≠ byColor) :
    ∀ l, ∃ v, attackScan b tr tc byColor l = .ok v := by
  intro l
  induction l with
  | nil => exact ⟨false, rfl⟩
  | cons s rest ih =>
    cases hbs : b s.1 s.2 with
    | none =>
      simp only [attackScan, hbs]
      exact ih
    | some p =>
      simp only [attackScan, hbs]
      by_cases hcol : p.color = byColor
      · rw [if_pos hcol]
        have hne : s ≠ (tr, tc) := by
          intro he
          rw [he] at hbs
          exact hsafe p hbs hcol
        obtain ⟨v, hv⟩ := isLegalMove_ok_of_ne b s (tr, tc) p true hne
        rw [hv]
        cases v
        · exact ih
        · exact ⟨true, rfl⟩
      · rw [if_neg hcol]
        exact ih

/-- Check detection never faults: the king's square holds the king of the
queried color, never a piece of the attacking color. -/
lemma isInCheck_ok (b : Board) (color : Color) : ∃ v, isInCheck b color = .ok v := by
  cases hk : findKing b color with
  | none =>
    simp only [isInCheck, hk]
    exact ⟨false, rfl⟩
  | some k =>
    simp only [isInCheck, hk]
    apply attackScan_ok
    intro p hp hcol
    have hfind := List.find?_some hk
    rw [decide_eq_true_eq] at hfind
    rw [hp] at hfind
    injection hfind with hpk
    rw [hpk] at hcol
    exact Color.opp_ne color hcol.symm

/-! ## Scan order of the 8×8 board -/

/-- Row-major order: the order in which the source's nested loops visit the
board ("scanning rows then columns"). -/
def sqLT (a c : Sq) : Prop := a.1 < c.1 ∨ (a.1 = c.1 ∧ a.2 < c.2)

instance (a c : Sq) : Decidable (sqLT a c) := by unfold sqLT; infer_instance

set_option maxRecDepth 100000 in
/-- Splitting the row-major enumeration at a given square. -/
lemma allSquares_split (s : Sq) :
    allSquares =
      (allSquares.filter fun x => decide (sqLT x s)) ++
        s :: (allSquares.filter fun x => decide (sqLT s x)) := by
  revert s
  decide

lemma find?_append_of_none {α : Type} (p : α → Bool) (l1 l2 : List α)
    (h : ∀ x ∈ l1, p x = false) : (l1 ++ l2).find? p = l2.find? p := by
  induction l1 with
  | nil => rfl
  | cons x l1' ih =>
    simp only [List.cons_append]
    rw [List.find?_cons_of_neg _ (by rw [h x (List.mem_cons_self x l1')]; decide)]
    exact ih fun y hy => h y (List.mem_cons_of_mem x hy)

/-- `findKing` returns the first square, in row-major order, holding the
requested king. -/
lemma findKing_eq_first (b : Board) (color : Color) (kr kc : Fin 8)
    (hb : b kr kc = some ⟨.king, color⟩)
    (hfirst : ∀ r q : Fin 8, sqLT (r, q) (kr, kc) → b r q ≠ some ⟨.king, color⟩) :
    findKing b color = some (kr, kc) := by
  unfold findKing
  rw [allSquares_split (kr, kc)]
  rw [find?_append_of_none _ _ _ ?hnone]
  · rw [List.find?_cons_of_pos _ (by rw [decide_eq_true_eq]; exact hb)]
  case hnone =>
    intro x hx
    have hlt : sqLT x (kr, kc) := by
      have := (List.mem_filter.mp hx).2
      rwa [decide_eq_true_eq] at this
    rw [decide_eq_false (hfirst x.1 x.2 hlt)]

/-- If no square holds the requested king, `findKing` returns `none`. -/
lemma findKing_eq_none (b : Board) (color : Color)
    (h : ∀ r q : Fin 8, b r q ≠ some ⟨.king, color⟩) : findKing b color = none := by
  unfold findKing
  rw [List.find?_eq_none]
  intro x _
  rw [decide_eq_true_eq]
  exact h x.1 x.2

/-! ## Characterising the legal-move scans -/

/-- The full success condition for one candidate move in the enumeration
loops: distinct squares, no same-color piece on the destination,
pseudo-legal, and the mover not in check after simulating the move. -/
def moveWorks (b : Board) (c : Color) (f t : Sq) (p : Piece) : Prop :=
  f ≠ t ∧ (∀ q, b t.1 t.2 = some q → q.color ≠ c) ∧
  isLegalMove f t p b false = .ok true ∧
  isInCheck (simMove b f t p) c = .ok false

lemma hlmInner_spec (b : Board) (c : Color) (f : Sq) (p : Piece) :
    ∀ l, ∃ v, hlmInner b c f p l = .ok v ∧
      (v = false ↔ ∀ t ∈ l, ¬ moveWorks b c f t p) := by
  intro l
  induction l with
  | nil =>
    refine ⟨false, rfl, ?_⟩
    simp
  | cons t rest ih =>
    obtain ⟨v, hv, hiff⟩ := ih
    by_cases hft : f = t
    · refine ⟨v, ?_, ?_⟩
      · simp only [hlmInner, if_pos hft]
        exact hv
      · rw [hiff]
        constructor
        · intro h x hx
          rcases List.mem_cons.mp hx with rfl | hx
          · intro hw
            exact hw.1 hft
          · exact h x hx
        · intro h x hx
          exact h x (List.mem_cons_of_mem t hx)
    · obtain ⟨w, hw⟩ := isLegalMove_ok_of_ne b f t p false hft
      obtain ⟨x, hx⟩ := isInCheck_ok (simMove b f t p) c
      cases hbt : b t.1 t.2 with
      | some q =>
        by_cases hcol : q.color = c
        · refine ⟨v, ?_, ?_⟩
          · simp only [hlmInner, if_neg hft, hbt, if_pos hcol]
            exact hv
          · rw [hiff]
            constructor
            · intro h y hy
              rcases List.mem_cons.mp hy with rfl | hy
              · intro hwk
                exact hwk.2.1 q hbt hcol
              · exact h y hy
            · intro h y hy
              exact h y (List.mem_cons_of_mem t hy)
        · cases w
          · refine ⟨v, ?_, ?_⟩
            · simp only [hlmInner, if_neg hft, hbt, if_neg hcol, hw]
              exact hv
            · rw [hiff]
              constructor
              · intro h y hy
                rcases List.mem_cons.mp hy with rfl | hy
                · intro hwk
                  rw [hwk.2.2.1] at hw
                  cases hw
                · exact h y hy
              · intro h y hy
                exact h y (List.mem_cons_of_mem t hy)
          · cases x
            · refine ⟨true, ?_, ?_⟩
              · simp only [hlmInner, if_neg hft, hbt, if_neg hcol, hw, hx]
              · simp only [Bool.true_eq_false, false_iff]
                intro hall
                have htOK : ∀ q2 : Piece, b t.1 t.2 = some q2 → q2.color ≠ c := by
                  intro q2 hq2
                  rw [hbt] at hq2
                  injection hq2 with h2
                  rw [← h2]
                  exact hcol
                exact hall t (List.mem_cons_self t rest) ⟨hft, htOK, hw, hx⟩
            · refine ⟨v, ?_, ?_⟩
              · simp only [hlmInner, if_neg hft, hbt, if_neg hcol, hw, hx]
                exact hv
              · rw [hiff]
                constructor
                · intro h y hy
                  rcases List.mem_cons.mp hy with rfl | hy
                  · intro hwk
                    rw [hwk.2.2.2] at hx
                    cases hx
                  · exact h y hy
                · intro h y hy
                  exact h y (List.mem_cons_of_mem t hy)
      | none =>
        cases w
        · refine ⟨v, ?_, ?_⟩
          · simp only [hlmInner, if_neg hft, hbt, hw]
            exact hv
          · rw [hiff]
            constructor
            · intro h y hy
              rcases List.mem_cons.mp hy with rfl | hy
              · intro hwk
                rw [hwk.2.2.1] at hw
                cases hw
              · exact h y hy
            · intro h y hy
              exact h y (List.mem_cons_of_mem t hy)
        · cases x
          · refine ⟨true, ?_, ?_⟩
            · simp only [hlmInner, if_neg hft, hbt, hw, hx]
            · simp only [Bool.true_eq_false, false_iff]
              intro hall
              have htOK : ∀ q2 : Piece, b t.1 t.2 = some q2 → q2.color ≠ c := by
                intro q2 hq2
                rw [hbt] at hq2
                cases hq2
              exact hall t (List.mem_cons_self t rest) ⟨hft, htOK, hw, hx⟩
          · refine ⟨v, ?_, ?_⟩
            · simp only [hlmInner, if_neg hft, hbt, hw, hx]
              exact hv
            · rw [hiff]
              constructor
              · intro h y hy
                rcases List.mem_cons.mp hy with rfl | hy
                · intro hwk
                  rw [hwk.2.2.2] at hx
                  cases hx
                · exact h y hy
              · intro h y hy
                exact h y (List.mem_cons_of_mem t hy)

lemma hlmOuter_spec (b : Board) (c : Color) :
    ∀ l, ∃ v, hlmOuter b c l = .ok v ∧
      (v = false ↔ ∀ f ∈ l, ∀ p, b f.1 f.2 = some p → p.color = c →
        ∀ t, ¬ moveWorks b c f t p) := by
  intro l
  induction l with
  | nil =>
    refine ⟨false, rfl, ?_⟩
    simp
  | cons f rest ih =>
    obtain ⟨v, hv, hiff⟩ := ih
    cases hbf : b f.1 f.2 with
    | none =>
      refine ⟨v, ?_, ?_⟩
      · simp only [hlmOuter, hbf]
        exact hv
      · rw [hiff]
        constructor
        · intro h y hy
          rcases List.mem_cons.mp hy with rfl | hy
          · intro p hp
            rw [hbf] at hp
            cases hp
          · exact h y hy
        · intro h y hy
          exact h y (List.mem_cons_of_mem f hy)
    | some p =>
      by_cases hcol : p.color = c
      · obtain ⟨w, hw, hwiff⟩ := hlmInner_spec b c f p allSquares
        cases w
        · refine ⟨v, ?_, ?_⟩
          · simp only [hlmOuter, hbf, if_pos hcol, hw]
            exact hv
          · rw [hiff]
            constructor
            · intro h y hy
              rcases List.mem_cons.mp hy with rfl | hy
              · intro p2 hp2 hcol2 t
                rw [hbf] at hp2
                injection hp2 with h2
                rw [← h2]
                exact hwiff.mp rfl t (mem_allSquares t)
              · exact h y hy
            · intro h y hy
              exact h y (List.mem_cons_of_mem f hy)
        · refine ⟨true, ?_, ?_⟩
          · simp only [hlmOuter, hbf, if_pos hcol, hw]
          · simp only [Bool.true_eq_false, false_iff]
            intro hall
            have : ∀ t ∈ allSquares, ¬ moveWorks b c f t p := by
              intro t _
              exact hall f (List.mem_cons_self f rest) p hbf hcol t
            have hfalse := hwiff.mpr this
            cases hfalse
      · refine ⟨v, ?_, ?_⟩
        · simp only [hlmOuter, hbf, if_neg hcol]
          exact hv
        · rw [hiff]
          constructor
          · intro h y hy
            rcases List.mem_cons.mp hy with rfl | hy
            · intro p2 hp2 hcol2
              rw [hbf] at hp2
              injection hp2 with h2
              rw [← h2] at hcol2
              exact absurd hcol2 hcol
            · exact h y hy
          · intro h y hy
            exact h y (List.mem_cons_of_mem f hy)

/-- `hasAnyLegalMoves` never faults, and returns `false` exactly when no
piece of the color has any move surviving the two-phase filter. -/
lemma hasAnyLegalMoves_spec (b : Board) (c : Color) :
    ∃ v, hasAnyLegalMoves b c = .ok v ∧
      (v = false ↔ ∀ f p t, b f.1 f.2 = some p → p.color = c →
        ¬ moveWorks b c f t p) := by
  obtain ⟨v, hv, hiff⟩ := hlmOuter_spec b c allSquares
  refine ⟨v, hv, ?_⟩
  rw [hiff]
  constructor
  · intro h f p t hp hcol
    exact h f (mem_allSquares f) p hp hcol t
  · intro h f _ p hp hcol t
    exact h f p t hp hcol

lemma gpmScan_spec (b : Board) (c : Color) (f : Sq) (p : Piece) :
    ∀ l, ∃ ms, gpmScan b c f p l = .ok ms ∧
      ∀ t, (t ∈ ms ↔ t ∈ l ∧ moveWorks b c f t p) := by
  intro l
  induction l with
  | nil =>
    refine ⟨[], rfl, ?_⟩
    simp
  | cons t rest ih =>
    obtain ⟨ms, hms, hiff⟩ := ih
    by_cases hft : f = t
    · refine ⟨ms, ?_, ?_⟩
      · simp only [gpmScan, if_pos hft]
        exact hms
      · intro y
        rw [hiff y]
        constructor
        · intro ⟨hy, hwk⟩
          exact ⟨List.mem_cons_of_mem t hy, hwk⟩
        · intro ⟨hy, hwk⟩
          rcases List.mem_cons.mp hy with rfl | hy
          · exact absurd hft hwk.1
          · exact ⟨hy, hwk⟩
    · obtain ⟨w, hw⟩ := isLegalMove_ok_of_ne b f t p false hft
      obtain ⟨x, hx⟩ := isInCheck_ok (simMove b f t p) c
      cases hbt : b t.1 t.2 with
      | some q =>
        by_cases hcol : q.color = c
        · refine ⟨ms, ?_, ?_⟩
          · simp only [gpmScan, if_neg hft, hbt, if_pos hcol]
            exact hms
          · intro y
            rw [hiff y]
            constructor
            · intro ⟨hy, hwk⟩
              exact ⟨List.mem_cons_of_mem t hy, hwk⟩
            · intro ⟨hy, hwk⟩
              rcases List.mem_cons.mp hy with rfl | hy
              · exact absurd hcol (hwk.2.1 q hbt)
              · exact ⟨hy, hwk⟩
        · cases w
          · refine ⟨ms, ?_, ?_⟩
            · simp only [gpmScan, if_neg hft, hbt, if_neg hcol, hw]
              exact hms
            · intro y
              rw [hiff y]
              constructor
              · intro ⟨hy, hwk⟩
                exact ⟨List.mem_cons_of_mem t hy, hwk⟩
              · intro ⟨hy, hwk⟩
                rcases List.mem_cons.mp hy with rfl | hy
                · rw [hwk.2.2.1] at hw
                  cases hw
                · exact ⟨hy, hwk⟩
          · cases x
            · refine ⟨t :: ms, ?_, ?_⟩
              · simp only [gpmScan, if_neg hft, hbt, if_neg hcol, hw, hx, hms]
              · intro y
                constructor
                · intro hy
                  rcases List.mem_cons.mp hy with rfl | hy
                  · have htOK : ∀ q2 : Piece, b y.1 y.2 = some q2 → q2.color ≠ c := by
                      intro q2 hq2
                      rw [hbt] at hq2
                      injection hq2 with h2
                      rw [← h2]
                      exact hcol
                    exact ⟨List.mem_cons_self y rest, hft, htOK, hw, hx⟩
                  · obtain ⟨hy2, hwk⟩ := (hiff y).mp hy
                    exact ⟨List.mem_cons_of_mem t hy2, hwk⟩
                · intro ⟨hy, hwk⟩
                  rcases List.mem_cons.mp hy with rfl | hy
                  · exact List.mem_cons_self y ms
                  · exact List.mem_cons_of_mem t ((hiff y).mpr ⟨hy, hwk⟩)
            · refine ⟨ms, ?_, ?_⟩
              · simp only [gpmScan, if_neg hft, hbt, if_neg hcol, hw, hx]
                exact hms
              · intro y
                rw [hiff y]
                constructor
                · intro ⟨hy, hwk⟩
                  exact ⟨List.mem_cons_of_mem t hy, hwk⟩
                · intro ⟨hy, hwk⟩
                  rcases List.mem_cons.mp hy with rfl | hy
                  · rw [hwk.2.2.2] at hx
                    cases hx
                  · exact ⟨hy, hwk⟩
      | none =>
        cases w
        · refine ⟨ms, ?_, ?_⟩
          · simp only [gpmScan, if_neg hft, hbt, hw]
            exact hms
          · intro y
            rw [hiff y]
            constructor
            · intro ⟨hy, hwk⟩
              exact ⟨List.mem_cons_of_mem t hy, hwk⟩
            · intro ⟨hy, hwk⟩
              rcases List.mem_cons.mp hy with rfl | hy
              · rw [hwk.2.2.1] at hw
                cases hw
              · exact ⟨hy, hwk⟩
        · cases x
          · refine ⟨t :: ms, ?_, ?_⟩
            · simp only [gpmScan, if_neg hft, hbt, hw, hx, hms]
            · intro y
              constructor
              · intro hy
                rcases List.mem_cons.mp hy with rfl | hy
                · have htOK : ∀ q2 : Piece, b y.1 y.2 = some q2 → q2.color ≠ c := by
                    intro q2 hq2
                    rw [hbt] at hq2
                    cases hq2
                  exact ⟨List.mem_cons_self y rest, hft, htOK, hw, hx⟩
                · obtain ⟨hy2, hwk⟩ := (hiff y).mp hy
                  exact ⟨List.mem_cons_of_mem t hy2, hwk⟩
              · intro ⟨hy, hwk⟩
                rcases List.mem_cons.mp hy with rfl | hy
                · exact List.mem_cons_self y ms
                · exact List.mem_cons_of_mem t ((hiff y).mpr ⟨hy, hwk⟩)
          · refine ⟨ms, ?_, ?_⟩
            · simp only [gpmScan, if_neg hft, hbt, hw, hx]
              exact hms
            · intro y
              rw [hiff y]
              constructor
              · intro ⟨hy, hwk⟩
                exact ⟨List.mem_cons_of_mem t hy, hwk⟩
              · intro ⟨hy, hwk⟩
                rcases List.mem_cons.mp hy with rfl | hy
                · rw [hwk.2.2.2] at hx
                  cases hx
                · exact ⟨hy, hwk⟩

/-! ## The attack oracle and self-attack -/

/-- In the source, a rook, queen or king "reaches" its own square: the rook
and queen loops exit immediately and the king distance check is satisfied. -/
lemma ilm_self_true (b : Board) (s : Sq) (cl : Color) (k : Kind) (m : Bool)
    (hk : k = .rook ∨ k = .queen ∨ k = .king) :
    isLegalMove s s ⟨k, cl⟩ b m = .ok true := by
  rcases hk with rfl | rfl | rfl
  · show isLegalMoveWith (getI b) s s ⟨.rook, cl⟩ b m = .ok true
    rw [ilm_rook (getI b) s s ⟨.rook, cl⟩ b m rfl]
    exact rookMoveG_self (getI b) s
  · show isLegalMoveWith (getI b) s s ⟨.queen, cl⟩ b m = .ok true
    rw [ilm_queen (getI b) s s ⟨.queen, cl⟩ b m rfl]
    exact queenMoveG_self (getI b) s
  · show isLegalMoveWith (getI b) s s ⟨.king, cl⟩ b m = .ok true
    cases cl <;> simp [isLegalMoveWith]

/-- Scanning a list that ends with the queried square itself: if the square
holds a piece of the scanning color that "reaches" its own square, the scan
reports an attack, and no earlier square can fault (faulting needs origin =
destination). -/
lemma attackScan_hits (b : Board) (tr tc : Fin 8) (c : Color) (k : Kind) (cl2 : Color)
    (hb : b tr tc = some ⟨k, cl2⟩) (hcl : cl2 = c)
    (hself : isLegalMove (tr, tc) (tr, tc) ⟨k, cl2⟩ b true = .ok true) :
    ∀ l1 l2, (∀ x ∈ l1, x ≠ (tr, tc)) →
      attackScan b tr tc c (l1 ++ (tr, tc) :: l2) = .ok true := by
  intro l1
  induction l1 with
  | nil =>
    intro l2 _
    rw [List.nil_append]
    simp only [attackScan, hb, if_pos hcl, hself]
  | cons x l1' ih =>
    intro l2 hne
    rw [List.cons_append]
    cases hbx : b x.1 x.2 with
    | none =>
      simp only [attackScan, hbx]
      exact ih l2 fun y hy => hne y (List.mem_cons_of_mem x hy)
    | some p =>
      simp only [attackScan, hbx]
      by_cases hcol : p.color = c
      · rw [if_pos hcol]
        have hxs : x ≠ (tr, tc) := hne x (List.mem_cons_self x l1')
        obtain ⟨v, hv⟩ := isLegalMove_ok_of_ne b x (tr, tc) p true hxs
        rw [hv]
        cases v
        · exact ih l2 fun y hy => hne y (List.mem_cons_of_mem x hy)
        · rfl
      · rw [if_neg hcol]
        exact ih l2 fun y hy => hne y (List.mem_cons_of_mem x hy)

/-! ## Concrete positions for witnesses -/

/-- Build a board from an association list of occupied squares. -/
def boardOf (l : List (Sq × Piece)) : Board :=
  fun r c => (l.find? fun e => decide (e.1 = (r, c))).map fun e => e.2

def emptyB : Board := fun _ _ => none

/-- A lone white rook. -/
def bRook : Board := boardOf [(((3:Fin 8), (3:Fin 8)), ⟨.rook, .white⟩)]

/-! ## Claim theorems -/

/-- C10: if a square holds a Rook, Queen or King of color `c`, the attack
oracle reports that square as attacked by `c` itself: in attack mode the
pseudo-legal predicate returns true for these kinds when origin equals
destination, so the piece standing on the queried square makes the square
count as attacked by its own side. -/
theorem c10_self_attack (b : Board) (tr tc : Fin 8) (c : Color) (k : Kind)
    (hb : b tr tc = some ⟨k, c⟩) (hk : k = .rook ∨ k = .queen ∨ k = .king) :
    isLegalMove (tr, tc) (tr, tc) ⟨k, c⟩ b true = .ok true ∧
    isSquareAttacked b tr tc c = .ok true := by
  have hself := ilm_self_true b (tr, tc) c k true hk
  refine ⟨hself, ?_⟩
  unfold isSquareAttacked
  rw [allSquares_split (tr, tc)]
  apply attackScan_hits b tr tc c k c hb rfl hself
  intro x hx he
  have hlt := (List.mem_filter.mp hx).2
  rw [decide_eq_true_eq] at hlt
  rw [he] at hlt
  unfold sqLT at hlt
  rcases hlt with h | ⟨_, h⟩ <;> exact lt_irrefl _ h

/-- C10 witness at a concrete position. -/
theorem c10_witness : isSquareAttacked bRook 3 3 .white = .ok true :=
  (c10_self_attack bRook 3 3 .white .rook (by decide) (Or.inl rfl)).2

/-- C8: if no square of the board holds `c`'s king, check detection reports
"not in check" (it returns, it does not fail); otherwise it reports whether
the square of the first king found scanning rows then columns is attacked by
the opposing color. -/
theorem c8_missing_king (b : Board) (c : Color) :
    ((∀ r q : Fin 8, b r q ≠ some ⟨.king, c⟩) → isInCheck b c = .ok false) ∧
    (∀ kr kc : Fin 8, b kr kc = some ⟨.king, c⟩ →
      (∀ r q : Fin 8, sqLT (r, q) (kr, kc) → b r q ≠ some ⟨.king, c⟩) →
      isInCheck b c = isSquareAttacked b kr kc c.opp) ∧
    (∃ v, isInCheck b c = .ok v) := by
  refine ⟨?_, ?_, isInCheck_ok b c⟩
  · intro h
    unfold isInCheck
    rw [findKing_eq_none b c h]
  · intro kr kc hb hfirst
    unfold isInCheck
    rw [findKing_eq_first b c kr kc hb hfirst]

/-- C8 witness: a board without a white king is reported as "not in check". -/
theorem c8_witness : isInCheck emptyB .white = .ok false :=
  (c8_missing_king emptyB .white).1 (by decide)

/-- C6 (amended): for every piece, board and attack flag, the pseudo-legal
predicate terminates reading only squares of the 8×8 board — faulting on any
out-of-range read — whenever the origin differs from the destination, and
also when they coincide for every piece other than the bishop.  (A bishop
queried with origin = destination walks off the board; see the
counterexample.) -/
theorem c6_inbounds (f t : Sq) (p : Piece) (b : Board) (m : Bool)
    (h : f ≠ t ∨ p.kind ≠ .bishop) :
    ∃ v, isLegalMoveS f t p b m = .ok v ∧ isLegalMove f t p b m = .ok v := by
  obtain ⟨k, cl⟩ := p
  by_cases hft : f = t
  · subst hft
    have hk : k ≠ .bishop := by
      rcases h with h | h
      · exact absurd rfl h
      · exact h
    cases k
    · obtain ⟨v, hv⟩ := ilm_pawn_ok (getIS b) f f cl b m
      refine ⟨v, hv, ?_⟩
      show isLegalMoveWith (getI b) f f ⟨.pawn, cl⟩ b m = .ok v
      rw [ilm_pawn_get_irrel (getI b) (getIS b) f f cl b m]
      exact hv
    · refine ⟨true, ?_, ?_⟩
      · show isLegalMoveWith (getIS b) f f ⟨.rook, cl⟩ b m = .ok true
        rw [ilm_rook (getIS b) f f ⟨.rook, cl⟩ b m rfl]
        exact rookMoveG_self (getIS b) f
      · show isLegalMoveWith (getI b) f f ⟨.rook, cl⟩ b m = .ok true
        rw [ilm_rook (getI b) f f ⟨.rook, cl⟩ b m rfl]
        exact rookMoveG_self (getI b) f
    · exact ⟨_, rfl, rfl⟩
    · exact absurd rfl hk
    · refine ⟨true, ?_, ?_⟩
      · show isLegalMoveWith (getIS b) f f ⟨.queen, cl⟩ b m = .ok true
        rw [ilm_queen (getIS b) f f ⟨.queen, cl⟩ b m rfl]
        exact queenMoveG_self (getIS b) f
      · show isLegalMoveWith (getI b) f f ⟨.queen, cl⟩ b m = .ok true
        rw [ilm_queen (getI b) f f ⟨.queen, cl⟩ b m rfl]
        exact queenMoveG_self (getI b) f
    · exact ⟨_, rfl, rfl⟩
  · cases k
    · obtain ⟨v, hv⟩ := ilm_pawn_ok (getIS b) f t cl b m
      refine ⟨v, hv, ?_⟩
      show isLegalMoveWith (getI b) f t ⟨.pawn, cl⟩ b m = .ok v
      rw [ilm_pawn_get_irrel (getI b) (getIS b) f t cl b m]
      exact hv
    · refine ⟨decide (rookLine f t ∧ rookClear b f t), ?_, ?_⟩
      · show isLegalMoveWith (getIS b) f t ⟨.rook, cl⟩ b m = _
        rw [ilm_rook (getIS b) f t ⟨.rook, cl⟩ b m rfl]
        exact rookMoveG_eval (getIS b) b (getterFor_getIS b) f t hft
      · show isLegalMoveWith (getI b) f t ⟨.rook, cl⟩ b m = _
        rw [ilm_rook (getI b) f t ⟨.rook, cl⟩ b m rfl]
        exact rookMoveG_eval (getI b) b (getterFor_getI b) f t hft
    · exact ⟨_, rfl, rfl⟩
    · refine ⟨decide (diagLine f t ∧ diagClear b f t), ?_, ?_⟩
      · show isLegalMoveWith (getIS b) f t ⟨.bishop, cl⟩ b m = _
        rw [ilm_bishop (getIS b) f t ⟨.bishop, cl⟩ b m rfl]
        exact bishMoveG_eval (getIS b) b (getterFor_getIS b) f t hft
      · show isLegalMoveWith (getI b) f t ⟨.bishop, cl⟩ b m = _
        rw [ilm_bishop (getI b) f t ⟨.bishop, cl⟩ b m rfl]
        exact bishMoveG_eval (getI b) b (getterFor_getI b) f t hft
    · refine ⟨decide ((rookLine f t ∧ rookClear b f t) ∨ (diagLine f t ∧ diagClear b f t)),
        ?_, ?_⟩
      · show isLegalMoveWith (getIS b) f t ⟨.queen, cl⟩ b m = _
        rw [ilm_queen (getIS b) f t ⟨.queen, cl⟩ b m rfl]
        exact queenMoveG_eval (getIS b) b (getterFor_getIS b) f t hft
      · show isLegalMoveWith (getI b) f t ⟨.queen, cl⟩ b m = _
        rw [ilm_queen (getI b) f t ⟨.queen, cl⟩ b m rfl]
        exact queenMoveG_eval (getI b) b (getterFor_getI b) f t hft
    · exact ⟨_, rfl, rfl⟩

/-- C6 counterexample: a bishop queried with origin = destination walks off
the upper-left edge of the board; the real JS read of row −1 throws (and the
instrumented reader confirms an out-of-range access). -/
theorem c6_counterexample :
    isLegalMove ((0:Fin 8), (0:Fin 8)) ((0:Fin 8), (0:Fin 8)) ⟨.bishop, .white⟩
      emptyB false = .error () ∧
    isLegalMoveS ((0:Fin 8), (0:Fin 8)) ((0:Fin 8), (0:Fin 8)) ⟨.bishop, .white⟩
      emptyB false = .error () := by
  constructor <;> decide

/-- C6 witness for the amended claim at a concrete rook query. -/
theorem c6_witness :
    ∃ v, isLegalMoveS ((0:Fin 8), (0:Fin 8)) ((0:Fin 8), (3:Fin 8)) ⟨.rook, .white⟩
        emptyB false = .ok v ∧
      isLegalMove ((0:Fin 8), (0:Fin 8)) ((0:Fin 8), (3:Fin 8)) ⟨.rook, .white⟩
        emptyB false = .ok v :=
  c6_inbounds _ _ _ _ _ (Or.inl (by decide))

/-- C3: for distinct squares, the Rook/Bishop/Queen pseudo-legality is
exactly "aligned for that piece and every square strictly between origin and
destination is empty" — false as soon as any strictly intermediate square is
occupied, in every direction of travel, and true on a clear aligned path
regardless of the destination's occupancy (and of the attack flag). -/
theorem c3_slider_blocking (b : Board) (f t : Sq) (m : Bool) (cl : Color) (hft : f ≠ t) :
    isLegalMove f t ⟨.rook, cl⟩ b m = .ok (decide (rookLine f t ∧ rookClear b f t)) ∧
    isLegalMove f t ⟨.bishop, cl⟩ b m = .ok (decide (diagLine f t ∧ diagClear b f t)) ∧
    isLegalMove f t ⟨.queen, cl⟩ b m =
      .ok (decide ((rookLine f t ∧ rookClear b f t) ∨ (diagLine f t ∧ diagClear b f t))) := by
  refine ⟨?_, ?_, ?_⟩
  · show isLegalMoveWith (getI b) f t ⟨.rook, cl⟩ b m = _
    rw [ilm_rook (getI b) f t ⟨.rook, cl⟩ b m rfl]
    exact rookMoveG_eval (getI b) b (getterFor_getI b) f t hft
  · show isLegalMoveWith (getI b) f t ⟨.bishop, cl⟩ b m = _
    rw [ilm_bishop (getI b) f t ⟨.bishop, cl⟩ b m rfl]
    exact bishMoveG_eval (getI b) b (getterFor_getI b) f t hft
  · show isLegalMoveWith (getI b) f t ⟨.queen, cl⟩ b m = _
    rw [ilm_queen (getI b) f t ⟨.queen, cl⟩ b m rfl]
    exact queenMoveG_eval (getI b) b (getterFor_getI b) f t hft

/-- A rook line with a blocker on it, for the C3 witness. -/
def bBlock : Board :=
  boardOf [(((0:Fin 8), (0:Fin 8)), ⟨.rook, .white⟩),
           (((0:Fin 8), (3:Fin 8)), ⟨.pawn, .black⟩)]

/-- C3 witness at a concrete blocked file. -/
theorem c3_witness :
    isLegalMove ((0:Fin 8), (0:Fin 8)) ((0:Fin 8), (5:Fin 8)) ⟨.rook, .white⟩ bBlock false =
      .ok (decide (rookLine ((0:Fin 8), (0:Fin 8)) ((0:Fin 8), (5:Fin 8)) ∧
        rookClear bBlock ((0:Fin 8), (0:Fin 8)) ((0:Fin 8), (5:Fin 8)))) ∧
    isLegalMove ((0:Fin 8), (0:Fin 8)) ((0:Fin 8), (5:Fin 8)) ⟨.bishop, .white⟩ bBlock false =
      .ok (decide (diagLine ((0:Fin 8), (0:Fin 8)) ((0:Fin 8), (5:Fin 8)) ∧
        diagClear bBlock ((0:Fin 8), (0:Fin 8)) ((0:Fin 8), (5:Fin 8)))) ∧
    isLegalMove ((0:Fin 8), (0:Fin 8)) ((0:Fin 8), (5:Fin 8)) ⟨.queen, .white⟩ bBlock false =
      .ok (decide ((rookLine ((0:Fin 8), (0:Fin 8)) ((0:Fin 8), (5:Fin 8)) ∧
        rookClear bBlock ((0:Fin 8), (0:Fin 8)) ((0:Fin 8), (5:Fin 8))) ∨
        (diagLine ((0:Fin 8), (0:Fin 8)) ((0:Fin 8), (5:Fin 8)) ∧
        diagClear bBlock ((0:Fin 8), (0:Fin 8)) ((0:Fin 8), (5:Fin 8))))) :=
  c3_slider_blocking bBlock ((0:Fin 8), (0:Fin 8)) ((0:Fin 8), (5:Fin 8)) false .white
    (by decide)

instance optSomeColorDec (o : Option Piece) (c : Color) :
    Decidable (∃ q, o = some q ∧ q.color = c) :=
  match o with
  | none => .isFalse fun ⟨_, h, _⟩ => by cases h
  | some p =>
    if h : p.color = c then .isTrue ⟨p, rfl, h⟩
    else .isFalse fun ⟨q, hq, hc⟩ => by
      injection hq with hh
      rw [hh] at h
      exact h hc

lemma isBlackOpt_iff (o : Option Piece) :
    isBlackOpt o = true ↔ ∃ q, o = some q ∧ q.color = .black := by
  cases o with
  | none =>
    simp [isBlackOpt]
  | some p =>
    simp [isBlackOpt]

lemma isWhiteOpt_iff (o : Option Piece) :
    isWhiteOpt o = true ↔ ∃ q, o = some q ∧ q.color = .white := by
  cases o with
  | none =>
    simp [isWhiteOpt]
  | some p =>
    simp [isWhiteOpt]

/-- C4: pawn pseudo-legality, for both colors.  With the attack flag off it
permits exactly: one square straight forward (towards decreasing rows for
White, increasing for Black) onto an empty destination; two squares straight
forward only from the starting rank (row 6 White, row 1 Black) when both the
intermediate and the destination squares are empty; and a one-square forward
diagonal only when the destination holds an opposite-color piece.  With the
attack flag on, the forward diagonal is additionally permitted regardless of
the destination's occupancy. -/
theorem c4_pawn_rules (b : Board) (f t : Sq) (m : Bool) :
    (isLegalMove f t ⟨.pawn, .white⟩ b m = .ok (decide (
      (ri f.2 = ri t.2 ∧ b t.1 t.2 = none ∧
        (ri t.1 = ri f.1 - 1 ∨ (ri f.1 = 6 ∧ ri t.1 = 4 ∧ b 5 f.2 = none))) ∨
      ((ri t.2 - ri f.2).natAbs = 1 ∧ ri t.1 = ri f.1 - 1 ∧
        (∃ q, b t.1 t.2 = some q ∧ q.color = .black)) ∨
      (m = true ∧ (ri t.2 - ri f.2).natAbs = 1 ∧ ri t.1 = ri f.1 - 1)))) ∧
    (isLegalMove f t ⟨.pawn, .black⟩ b m = .ok (decide (
      (ri f.2 = ri t.2 ∧ b t.1 t.2 = none ∧
        (ri t.1 = ri f.1 + 1 ∨ (ri f.1 = 1 ∧ ri t.1 = 3 ∧ b 2 f.2 = none))) ∨
      ((ri t.2 - ri f.2).natAbs = 1 ∧ ri t.1 = ri f.1 + 1 ∧
        (∃ q, b t.1 t.2 = some q ∧ q.color = .white)) ∨
      (m = true ∧ (ri t.2 - ri f.2).natAbs = 1 ∧ ri t.1 = ri f.1 + 1)))) := by
  constructor
  · show isLegalMoveWith (getI b) f t ⟨.pawn, .white⟩ b m = _
    simp only [isLegalMoveWith]
    split_ifs with h1 h2 h3
    · have hW : (ri f.2 = ri t.2 ∧ b t.1 t.2 = none ∧
          (ri t.1 = ri f.1 - 1 ∨ (ri f.1 = 6 ∧ ri t.1 = 4 ∧ b 5 f.2 = none))) ∨
          ((ri t.2 - ri f.2).natAbs = 1 ∧ ri t.1 = ri f.1 - 1 ∧
            (∃ q, b t.1 t.2 = some q ∧ q.color = .black)) ∨
          (m = true ∧ (ri t.2 - ri f.2).natAbs = 1 ∧ ri t.1 = ri f.1 - 1) := Or.inl h1
      rw [decide_eq_true hW]
    · have hW : (ri f.2 = ri t.2 ∧ b t.1 t.2 = none ∧
          (ri t.1 = ri f.1 - 1 ∨ (ri f.1 = 6 ∧ ri t.1 = 4 ∧ b 5 f.2 = none))) ∨
          ((ri t.2 - ri f.2).natAbs = 1 ∧ ri t.1 = ri f.1 - 1 ∧
            (∃ q, b t.1 t.2 = some q ∧ q.color = .black)) ∨
          (m = true ∧ (ri t.2 - ri f.2).natAbs = 1 ∧ ri t.1 = ri f.1 - 1) :=
        Or.inr (Or.inl ⟨h2.1, h2.2.1, (isBlackOpt_iff (b t.1 t.2)).mp h2.2.2⟩)
      rw [decide_eq_true hW]
    · have hW : (ri f.2 = ri t.2 ∧ b t.1 t.2 = none ∧
          (ri t.1 = ri f.1 - 1 ∨ (ri f.1 = 6 ∧ ri t.1 = 4 ∧ b 5 f.2 = none))) ∨
          ((ri t.2 - ri f.2).natAbs = 1 ∧ ri t.1 = ri f.1 - 1 ∧
            (∃ q, b t.1 t.2 = some q ∧ q.color = .black)) ∨
          (m = true ∧ (ri t.2 - ri f.2).natAbs = 1 ∧ ri t.1 = ri f.1 - 1) := Or.inr (Or.inr h3)
      rw [decide_eq_true hW]
    · have hnot : ¬((ri f.2 = ri t.2 ∧ b t.1 t.2 = none ∧
          (ri t.1 = ri f.1 - 1 ∨ (ri f.1 = 6 ∧ ri t.1 = 4 ∧ b 5 f.2 = none))) ∨
          ((ri t.2 - ri f.2).natAbs = 1 ∧ ri t.1 = ri f.1 - 1 ∧
            (∃ q, b t.1 t.2 = some q ∧ q.color = .black)) ∨
          (m = true ∧ (ri t.2 - ri f.2).natAbs = 1 ∧ ri t.1 = ri f.1 - 1)) := by
        rintro (hW | hW | hW)
        · exact h1 hW
        · exact h2 ⟨hW.1, hW.2.1, (isBlackOpt_iff (b t.1 t.2)).mpr hW.2.2⟩
        · exact h3 hW
      rw [decide_eq_false hnot]
  · show isLegalMoveWith (getI b) f t ⟨.pawn, .black⟩ b m = _
    simp only [isLegalMoveWith]
    split_ifs with h1 h2 h3
    · have hW : (ri f.2 = ri t.2 ∧ b t.1 t.2 = none ∧
          (ri t.1 = ri f.1 + 1 ∨ (ri f.1 = 1 ∧ ri t.1 = 3 ∧ b 2 f.2 = none))) ∨
          ((ri t.2 - ri f.2).natAbs = 1 ∧ ri t.1 = ri f.1 + 1 ∧
            (∃ q, b t.1 t.2 = some q ∧ q.color = .white)) ∨
          (m = true ∧ (ri t.2 - ri f.2).natAbs = 1 ∧ ri t.1 = ri f.1 + 1) := Or.inl h1
      rw [decide_eq_true hW]
    · have hW : (ri f.2 = ri t.2 ∧ b t.1 t.2 = none ∧
          (ri t.1 = ri f.1 + 1 ∨ (ri f.1 = 1 ∧ ri t.1 = 3 ∧ b 2 f.2 = none))) ∨
          ((ri t.2 - ri f.2).natAbs = 1 ∧ ri t.1 = ri f.1 + 1 ∧
            (∃ q, b t.1 t.2 = some q ∧ q.color = .white)) ∨
          (m = true ∧ (ri t.2 - ri f.2).natAbs = 1 ∧ ri t.1 = ri f.1 + 1) :=
        Or.inr (Or.inl ⟨h2.1, h2.2.1, (isWhiteOpt_iff (b t.1 t.2)).mp h2.2.2⟩)
      rw [decide_eq_true hW]
    · have hW : (ri f.2 = ri t.2 ∧ b t.1 t.2 = none ∧
          (ri t.1 = ri f.1 + 1 ∨ (ri f.1 = 1 ∧ ri t.1 = 3 ∧ b 2 f.2 = none))) ∨
          ((ri t.2 - ri f.2).natAbs = 1 ∧ ri t.1 = ri f.1 + 1 ∧
            (∃ q, b t.1 t.2 = some q ∧ q.color = .white)) ∨
          (m = true ∧ (ri t.2 - ri f.2).natAbs = 1 ∧ ri t.1 = ri f.1 + 1) := Or.inr (Or.inr h3)
      rw [decide_eq_true hW]
    · have hnot : ¬((ri f.2 = ri t.2 ∧ b t.1 t.2 = none ∧
          (ri t.1 = ri f.1 + 1 ∨ (ri f.1 = 1 ∧ ri t.1 = 3 ∧ b 2 f.2 = none))) ∨
          ((ri t.2 - ri f.2).natAbs = 1 ∧ ri t.1 = ri f.1 + 1 ∧
            (∃ q, b t.1 t.2 = some q ∧ q.color = .white)) ∨
          (m = true ∧ (ri t.2 - ri f.2).natAbs = 1 ∧ ri t.1 = ri f.1 + 1)) := by
        rintro (hW | hW | hW)
        · exact h1 hW
        · exact h2 ⟨hW.1, hW.2.1, (isWhiteOpt_iff (b t.1 t.2)).mpr hW.2.2⟩
        · exact h3 hW
      rw [decide_eq_false hnot]

lemma rookBetween_ne (f t s : Sq) (h : rookBetween f t s) : s ≠ t := by
  intro he
  subst he
  rcases h with ⟨-, -, hb⟩ | ⟨-, -, hb⟩ <;>
    rcases hb with ⟨h1, h2⟩ | ⟨h1, h2⟩ <;>
      first
        | exact absurd h1 (lt_irrefl _)
        | exact absurd h2 (lt_irrefl _)

lemma diagBetween_ne (f t s : Sq) (h : diagBetween f t s) : s ≠ t := by
  intro he
  subst he
  obtain ⟨hb, -, -⟩ := h
  rcases hb with ⟨h1, h2⟩ | ⟨h1, h2⟩ <;>
    first
      | exact absurd h1 (lt_irrefl _)
      | exact absurd h2 (lt_irrefl _)

/-- C7 (amended): for every piece other than a pawn, the pseudo-legal result
with the attack flag off does not depend on the color of the occupant of the
destination square: flipping that occupant's color (same kind) on an
otherwise identical board leaves the result unchanged.  (For pawns the
diagonal-capture rule does consult that color; see the counterexample.) -/
theorem c7_color_independent (f t : Sq) (p : Piece) (b b2 : Board)
    (hp : p.kind ≠ .pawn) (hft : f ≠ t)
    (hsame : ∀ s : Sq, s ≠ t → b2 s.1 s.2 = b s.1 s.2)
    (hflip : ∀ q, b t.1 t.2 = some q → b2 t.1 t.2 = some ⟨q.kind, q.color.opp⟩)
    (hocc : ∃ q, b t.1 t.2 = some q) :
    isLegalMove f t p b false = isLegalMove f t p b2 false := by
  have hclear_r : rookClear b f t ↔ rookClear b2 f t := by
    constructor <;> intro h s hbet
    · rw [hsame s (rookBetween_ne f t s hbet)]
      exact h s hbet
    · rw [← hsame s (rookBetween_ne f t s hbet)]
      exact h s hbet
  have hclear_d : diagClear b f t ↔ diagClear b2 f t := by
    constructor <;> intro h s hbet
    · rw [hsame s (diagBetween_ne f t s hbet)]
      exact h s hbet
    · rw [← hsame s (diagBetween_ne f t s hbet)]
      exact h s hbet
  obtain ⟨k, cl⟩ := p
  cases k
  · exact absurd rfl hp
  · show isLegalMoveWith (getI b) f t ⟨.rook, cl⟩ b false =
      isLegalMoveWith (getI b2) f t ⟨.rook, cl⟩ b2 false
    rw [ilm_rook (getI b) f t ⟨.rook, cl⟩ b false rfl,
        ilm_rook (getI b2) f t ⟨.rook, cl⟩ b2 false rfl,
        rookMoveG_eval (getI b) b (getterFor_getI b) f t hft,
        rookMoveG_eval (getI b2) b2 (getterFor_getI b2) f t hft]
    congr 1
    rw [decide_eq_decide]
    exact and_congr_right fun _ => hclear_r
  · rfl
  · show isLegalMoveWith (getI b) f t ⟨.bishop, cl⟩ b false =
      isLegalMoveWith (getI b2) f t ⟨.bishop, cl⟩ b2 false
    rw [ilm_bishop (getI b) f t ⟨.bishop, cl⟩ b false rfl,
        ilm_bishop (getI b2) f t ⟨.bishop, cl⟩ b2 false rfl,
        bishMoveG_eval (getI b) b (getterFor_getI b) f t hft,
        bishMoveG_eval (getI b2) b2 (getterFor_getI b2) f t hft]
    congr 1
    rw [decide_eq_decide]
    exact and_congr_right fun _ => hclear_d
  · show isLegalMoveWith (getI b) f t ⟨.queen, cl⟩ b false =
      isLegalMoveWith (getI b2) f t ⟨.queen, cl⟩ b2 false
    rw [ilm_queen (getI b) f t ⟨.queen, cl⟩ b false rfl,
        ilm_queen (getI b2) f t ⟨.queen, cl⟩ b2 false rfl,
        queenMoveG_eval (getI b) b (getterFor_getI b) f t hft,
        queenMoveG_eval (getI b2) b2 (getterFor_getI b2) f t hft]
    congr 1
    rw [decide_eq_decide]
    exact or_congr (and_congr_right fun _ => hclear_r) (and_congr_right fun _ => hclear_d)
  · rfl

/-- Board with a black pawn on the capture square of a white pawn. -/
def bPawnCapB : Board :=
  boardOf [(((6:Fin 8), (4:Fin 8)), ⟨.pawn, .white⟩),
           (((5:Fin 8), (5:Fin 8)), ⟨.pawn, .black⟩)]

/-- The same board with the occupant of the capture square recolored. -/
def bPawnCapW : Board :=
  boardOf [(((6:Fin 8), (4:Fin 8)), ⟨.pawn, .white⟩),
           (((5:Fin 8), (5:Fin 8)), ⟨.pawn, .white⟩)]

/-- C7 counterexample: the two boards are identical except for the color of
the occupant of the destination, yet the white pawn's diagonal move is
pseudo-legal on one and not the other, with the attack flag off. -/
theorem c7_counterexample :
    (∀ s : Sq, s ≠ ((5:Fin 8), (5:Fin 8)) → bPawnCapW s.1 s.2 = bPawnCapB s.1 s.2) ∧
    bPawnCapB 5 5 = some ⟨.pawn, .black⟩ ∧
    bPawnCapW 5 5 = some ⟨.pawn, .white⟩ ∧
    isLegalMove ((6:Fin 8), (4:Fin 8)) ((5:Fin 8), (5:Fin 8)) ⟨.pawn, .white⟩
      bPawnCapB false = .ok true ∧
    isLegalMove ((6:Fin 8), (4:Fin 8)) ((5:Fin 8), (5:Fin 8)) ⟨.pawn, .white⟩
      bPawnCapW false = .ok false := by
  refine ⟨?_, ?_, ?_, ?_, ?_⟩ <;> decide

/-- C7 witness: a rook capture is insensitive to the recoloring. -/
theorem c7_witness :
    isLegalMove ((5:Fin 8), (0:Fin 8)) ((5:Fin 8), (5:Fin 8)) ⟨.rook, .black⟩
      bPawnCapB false =
    isLegalMove ((5:Fin 8), (0:Fin 8)) ((5:Fin 8), (5:Fin 8)) ⟨.rook, .black⟩
      bPawnCapW false :=
  c7_color_independent ((5:Fin 8), (0:Fin 8)) ((5:Fin 8), (5:Fin 8)) ⟨.rook, .black⟩
    bPawnCapB bPawnCapW (by decide) (by decide) (by decide) (by decide) (by decide)

/-- C1: for a piece of color `c` on the origin square, the enumeration of
`getPossibleMoves` (run for side `c`) returns without faulting, and a
destination is enumerated iff it does not hold a same-color piece, is
pseudo-legal for the piece's movement pattern, and simulating the move on a
copied board leaves `c` not in check.  In particular every enumerated
destination passes the king-safety simulation. -/
theorem c1_enumeration_king_safe (b : Board) (c : Color) (f : Sq) (k : Kind)
    (h : b f.1 f.2 = some ⟨k, c⟩) :
    ∃ ms, getPossibleMoves b c f = .ok ms ∧
      ∀ t : Sq, (t ∈ ms ↔
        (∀ q, b t.1 t.2 = some q → q.color ≠ c) ∧
        isLegalMove f t ⟨k, c⟩ b false = .ok true ∧
        isInCheck (simMove b f t ⟨k, c⟩) c = .ok false) := by
  obtain ⟨ms, hms, hiff⟩ := gpmScan_spec b c f ⟨k, c⟩ allSquares
  refine ⟨ms, ?_, ?_⟩
  · simp only [getPossibleMoves, h]
    exact hms
  · intro t
    rw [hiff t]
    constructor
    · intro ⟨_, hwk⟩
      exact ⟨hwk.2.1, hwk.2.2.1, hwk.2.2.2⟩
    · intro ⟨hok, hlegal, hsafe⟩
      have hft : f ≠ t := by
        intro he
        rw [← he] at hok
        exact hok ⟨k, c⟩ h rfl
      exact ⟨mem_allSquares t, hft, hok, hlegal, hsafe⟩

/-- A rook endgame position for the enumeration witness. -/
def bEnum : Board :=
  boardOf [(((7:Fin 8), (0:Fin 8)), ⟨.rook, .white⟩),
           (((7:Fin 8), (4:Fin 8)), ⟨.king, .white⟩),
           (((0:Fin 8), (4:Fin 8)), ⟨.king, .black⟩)]

/-- C1 witness: the characterization instantiated at a concrete position. -/
theorem c1_witness :
    ∃ ms, getPossibleMoves bEnum .white ((7:Fin 8), (0:Fin 8)) = .ok ms ∧
      ∀ t : Sq, (t ∈ ms ↔
        (∀ q, bEnum t.1 t.2 = some q → q.color ≠ .white) ∧
        isLegalMove ((7:Fin 8), (0:Fin 8)) t ⟨.rook, .white⟩ bEnum false = .ok true ∧
        isInCheck (simMove bEnum ((7:Fin 8), (0:Fin 8)) t ⟨.rook, .white⟩) .white =
          .ok false) :=
  c1_enumeration_king_safe bEnum .white ((7:Fin 8), (0:Fin 8)) .rook (by decide)

/-! ## The turn handler -/

/-- Unpacking a successful `applyMove`: all validation stages passed and the
result is the simulated board with the turn passed to the opponent; the
checkmate flag is set exactly when the opponent is in check with no legal
move on the new board. -/
lemma applyMove_ok_elim (g : GameSt) (f t : Sq) (x : GameSt × Bool)
    (h : applyMove g f t = .ok x) :
    ∃ p, g.board f.1 f.2 = some p ∧ p.color = g.player ∧ f ≠ t ∧
      (∀ q, g.board t.1 t.2 = some q → q.color ≠ g.player) ∧
      isLegalMove f t p g.board false = .ok true ∧
      isInCheck (simMove g.board f t p) g.player = .ok false ∧
      x.1 = ⟨simMove g.board f t p, g.player.opp⟩ ∧
      (x.2 = true ↔ isInCheck (simMove g.board f t p) g.player.opp = .ok true ∧
        hasAnyLegalMoves (simMove g.board f t p) g.player.opp = .ok false) := by
  cases hbf : g.board f.1 f.2 with
  | none =>
    simp only [applyMove, hbf] at h
    cases h
  | some p =>
    simp only [applyMove, hbf] at h
    by_cases hcol : p.color = g.player
    case neg =>
      rw [if_neg hcol] at h
      cases h
    rw [if_pos hcol] at h
    by_cases hft : f = t
    case pos =>
      rw [if_pos hft] at h
      cases h
    rw [if_neg hft] at h
    refine ⟨p, rfl, hcol, hft, ?_⟩
    cases hbt : g.board t.1 t.2 with
    | some q =>
      simp only [hbt] at h
      by_cases hqc : q.color = g.player.opp
      case neg =>
        rw [if_neg (by simpa using hqc)] at h
        cases h
      rw [if_pos (by simpa using hqc)] at h
      have htOK : ∀ q2 : Piece, some q = some q2 → q2.color ≠ g.player := by
        intro q2 hq2
        injection hq2 with h2
        rw [← h2, hqc]
        exact Color.opp_ne g.player
      refine ⟨htOK, ?_⟩
      cases hlm : isLegalMove f t p g.board false with
      | error e =>
        simp only [hlm] at h
        cases h
      | ok w =>
        cases w
        · simp only [hlm] at h
          cases h
        · refine ⟨rfl, ?_⟩
          cases hchk : isInCheck (simMove g.board f t p) g.player with
          | error e =>
            simp only [hlm, hchk] at h
            cases h
          | ok y =>
            cases y
            · refine ⟨rfl, ?_⟩
              cases hopp : isInCheck (simMove g.board f t p) g.player.opp with
              | error e =>
                simp only [hlm, hchk, hopp] at h
                cases h
              | ok z =>
                cases z
                · simp only [hlm, hchk, hopp] at h
                  rw [if_neg (by decide)] at h
                  injection h with h2
                  rw [← h2]
                  simp
                · simp only [hlm, hchk, hopp] at h
                  rw [if_pos trivial] at h
                  cases hany : hasAnyLegalMoves (simMove g.board f t p) g.player.opp with
                  | error e =>
                    simp only [hany] at h
                    cases h
                  | ok a =>
                    simp only [hany] at h
                    injection h with h2
                    rw [← h2]
                    cases a <;> simp
            · simp only [hlm, hchk] at h
              cases h
    | none =>
      simp only [hbt] at h
      rw [if_pos trivial] at h
      have htOK : ∀ q2 : Piece, (none : Option Piece) = some q2 → q2.color ≠ g.player := by
        intro q2 hq2
        cases hq2
      refine ⟨htOK, ?_⟩
      cases hlm : isLegalMove f t p g.board false with
      | error e =>
        simp only [hlm] at h
        cases h
      | ok w =>
        cases w
        · simp only [hlm] at h
          cases h
        · refine ⟨rfl, ?_⟩
          cases hchk : isInCheck (simMove g.board f t p) g.player with
          | error e =>
            simp only [hlm, hchk] at h
            cases h
          | ok y =>
            cases y
            · refine ⟨rfl, ?_⟩
              cases hopp : isInCheck (simMove g.board f t p) g.player.opp with
              | error e =>
                simp only [hlm, hchk, hopp] at h
                cases h
              | ok z =>
                cases z
                · simp only [hlm, hchk, hopp] at h
                  rw [if_neg (by decide)] at h
                  injection h with h2
                  rw [← h2]
                  simp
                · simp only [hlm, hchk, hopp] at h
                  rw [if_pos trivial] at h
                  cases hany : hasAnyLegalMoves (simMove g.board f t p) g.player.opp with
                  | error e =>
                    simp only [hany] at h
                    cases h
                  | ok a =>
                    simp only [hany] at h
                    injection h with h2
                    rw [← h2]
                    cases a <;> simp
            · simp only [hlm, hchk] at h
              cases h

/-- The illegality conditions of spec §7: no piece at the origin, a
wrong-color piece, a same-color destination, a move the piece's pattern
cannot make (including blocked paths), or a move that leaves the mover's own
king attacked. -/
def IllegalFor (g : GameSt) (f t : Sq) : Prop :=
  g.board f.1 f.2 = none ∨
  (∃ p, g.board f.1 f.2 = some p ∧ p.color ≠ g.player) ∨
  (∃ q, g.board t.1 t.2 = some q ∧ q.color = g.player) ∨
  (∃ p, g.board f.1 f.2 = some p ∧ isLegalMove f t p g.board false ≠ .ok true) ∨
  (∃ p, g.board f.1 f.2 = some p ∧ isLegalMove f t p g.board false = .ok true ∧
    isInCheck (simMove g.board f t p) g.player = .ok true)

/-- C5: an illegal move attempt fails with `IllegalMove` (`.error ()`) and
leaves the position — board and side to move — exactly as it was: the failed
call changes nothing observable. -/
theorem c5_illegal_unchanged (g : GameSt) (f t : Sq) (h : IllegalFor g f t) :
    applyMove g f t = .error () ∧ applyMoves g [(f, t)] = g := by
  have herr : applyMove g f t = .error () := by
    cases hres : applyMove g f t with
    | error e =>
      cases e
      rfl
    | ok x =>
      exfalso
      obtain ⟨p, hbf, hcol, hft, htOK, hlegal, hsafe, -, -⟩ := applyMove_ok_elim g f t x hres
      rcases h with h1 | ⟨p2, hp2, hc2⟩ | ⟨q, hq, hcq⟩ | ⟨p2, hp2, hl2⟩ | ⟨p2, hp2, hl2, hs2⟩
      · rw [h1] at hbf
        cases hbf
      · rw [hbf] at hp2
        injection hp2 with h2
        subst h2
        exact hc2 hcol
      · exact htOK q hq hcq
      · rw [hbf] at hp2
        injection hp2 with h2
        subst h2
        exact hl2 hlegal
      · rw [hbf] at hp2
        injection hp2 with h2
        subst h2
        have := hsafe.symm.trans hs2
        injection this with hbool
        cases hbool
  refine ⟨herr, ?_⟩
  simp only [applyMoves, herr]

/-- C5 witness: trying to capture one's own king is rejected and the
position survives unchanged. -/
theorem c5_witness :
    applyMove ⟨bEnum, .white⟩ ((7:Fin 8), (0:Fin 8)) ((7:Fin 8), (4:Fin 8)) = .error () ∧
    applyMoves ⟨bEnum, .white⟩ [(((7:Fin 8), (0:Fin 8)), ((7:Fin 8), (4:Fin 8)))] =
      ⟨bEnum, .white⟩ :=
  c5_illegal_unchanged ⟨bEnum, .white⟩ ((7:Fin 8), (0:Fin 8)) ((7:Fin 8), (4:Fin 8))
    (Or.inr (Or.inr (Or.inl ⟨⟨.king, .white⟩, by decide, rfl⟩)))

/-- C9: a successful move changes exactly the two squares of the move: the
destination now holds the piece that stood on the origin (same kind and
color — a pawn reaching the last rank stays a pawn), the origin is cleared,
every other square is untouched, and the turn passes to the opponent. -/
theorem c9_success_frame (g : GameSt) (f t : Sq) (g2 : GameSt) (fl : Bool)
    (h : applyMove g f t = .ok (g2, fl)) :
    ∃ p, g.board f.1 f.2 = some p ∧ g2.board t.1 t.2 = some p ∧
      g2.board f.1 f.2 = none ∧
      (∀ s : Sq, s ≠ f → s ≠ t → g2.board s.1 s.2 = g.board s.1 s.2) ∧
      g2.player = g.player.opp := by
  obtain ⟨p, hbf, -, hft, -, -, -, hx1, -⟩ := applyMove_ok_elim g f t (g2, fl) h
  have hg2 : g2 = ⟨simMove g.board f t p, g.player.opp⟩ := hx1
  refine ⟨p, hbf, ?_, ?_, ?_, ?_⟩
  · rw [hg2]
    show simMove g.board f t p t.1 t.2 = some p
    have hc1 : ¬(t.1 = f.1 ∧ t.2 = f.2) := by
      rintro ⟨h1, h2⟩
      exact hft (Prod.ext_iff.mpr ⟨h1, h2⟩).symm
    simp only [simMove]
    rw [if_neg hc1, if_pos (by simp)]
  · rw [hg2]
    show simMove g.board f t p f.1 f.2 = none
    simp only [simMove]
    rw [if_pos (by simp)]
  · intro s hsf hst
    rw [hg2]
    show simMove g.board f t p s.1 s.2 = g.board s.1 s.2
    have hc1 : ¬(s.1 = f.1 ∧ s.2 = f.2) := by
      rintro ⟨h1, h2⟩
      exact hsf (Prod.ext_iff.mpr ⟨h1, h2⟩)
    have hc2 : ¬(s.1 = t.1 ∧ s.2 = t.2) := by
      rintro ⟨h1, h2⟩
      exact hst (Prod.ext_iff.mpr ⟨h1, h2⟩)
    simp only [simMove]
    rw [if_neg hc1, if_neg hc2]
  · rw [hg2]

/-- C9 witness: a concrete successful rook move from the endgame position. -/
theorem c9_witness :
    ∃ p, bEnum ((7:Fin 8)) ((0:Fin 8)) = some p ∧
      (⟨simMove bEnum ((7:Fin 8), (0:Fin 8)) ((5:Fin 8), (0:Fin 8)) ⟨.rook, .white⟩,
        Color.black⟩ : GameSt).board ((5:Fin 8)) ((0:Fin 8)) = some p ∧
      (⟨simMove bEnum ((7:Fin 8), (0:Fin 8)) ((5:Fin 8), (0:Fin 8)) ⟨.rook, .white⟩,
        Color.black⟩ : GameSt).board ((7:Fin 8)) ((0:Fin 8)) = none ∧
      (∀ s : Sq, s ≠ ((7:Fin 8), (0:Fin 8)) → s ≠ ((5:Fin 8), (0:Fin 8)) →
        (⟨simMove bEnum ((7:Fin 8), (0:Fin 8)) ((5:Fin 8), (0:Fin 8)) ⟨.rook, .white⟩,
          Color.black⟩ : GameSt).board s.1 s.2 = bEnum s.1 s.2) ∧
      (⟨simMove bEnum ((7:Fin 8), (0:Fin 8)) ((5:Fin 8), (0:Fin 8)) ⟨.rook, .white⟩,
        Color.black⟩ : GameSt).player = Color.white.opp :=
  c9_success_frame ⟨bEnum, .white⟩ ((7:Fin 8), (0:Fin 8)) ((5:Fin 8), (0:Fin 8))
    ⟨simMove bEnum ((7:Fin 8), (0:Fin 8)) ((5:Fin 8), (0:Fin 8)) ⟨.rook, .white⟩,
      Color.black⟩ false rfl

/-- C2: once a move is applied with the checkmate flag set (the opponent of
the mover is in check on the new board and has no legal move), the game is
terminal in behaviour: every subsequent `applyMove` fails with `IllegalMove`,
and no sequence of further attempts ever changes the position or the side to
move — the game never leaves the checkmate state and never continues
alternating turns. -/
theorem c2_checkmate_frozen (g0 : GameSt) (f t : Sq) (g2 : GameSt)
    (h : applyMove g0 f t = .ok (g2, true)) :
    isInCheck g2.board g2.player = .ok true ∧
    hasAnyLegalMoves g2.board g2.player = .ok false ∧
    (∀ f2 t2 : Sq, applyMove g2 f2 t2 = .error ()) ∧
    (∀ l, applyMoves g2 l = g2) := by
  obtain ⟨p, hbf, hcol, hft, htOK, hlegal, hsafe, hx1, hx2⟩ :=
    applyMove_ok_elim g0 f t (g2, true) h
  have hg2 : g2 = ⟨simMove g0.board f t p, g0.player.opp⟩ := hx1
  obtain ⟨hchk, hany⟩ := hx2.mp rfl
  have hchk2 : isInCheck g2.board g2.player = .ok true := by
    rw [hg2]
    exact hchk
  have hany2 : hasAnyLegalMoves g2.board g2.player = .ok false := by
    rw [hg2]
    exact hany
  have hfrozen : ∀ f2 t2 : Sq, applyMove g2 f2 t2 = .error () := by
    intro f2 t2
    cases hres : applyMove g2 f2 t2 with
    | error e =>
      cases e
      rfl
    | ok x =>
      exfalso
      obtain ⟨p2, hbf2, hcol2, hft2, htOK2, hlegal2, hsafe2, -, -⟩ :=
        applyMove_ok_elim g2 f2 t2 x hres
      obtain ⟨v, hv, hiff⟩ := hasAnyLegalMoves_spec g2.board g2.player
      have hveq := hv.symm.trans hany2
      injection hveq with hveq
      exact hiff.mp hveq f2 p2 t2 hbf2 hcol2 ⟨hft2, htOK2, hlegal2, hsafe2⟩
  refine ⟨hchk2, hany2, hfrozen, ?_⟩
  intro l
  induction l with
  | nil => rfl
  | cons ft l ih =>
    obtain ⟨f2, t2⟩ := ft
    simp only [applyMoves, hfrozen f2 t2]
    exact ih

/-- A mate-in-one position: the white queen slides to b7, protected by the
white king, cornering the black king. -/
def bMate : Board :=
  boardOf [(((1:Fin 8), (7:Fin 8)), ⟨.queen, .white⟩),
           (((2:Fin 8), (2:Fin 8)), ⟨.king, .white⟩),
           (((0:Fin 8), (0:Fin 8)), ⟨.king, .black⟩)]

/-- C2 witness: after the mating queen move the position is frozen. -/
theorem c2_witness :
    applyMove ⟨simMove bMate ((1:Fin 8), (7:Fin 8)) ((1:Fin 8), (1:Fin 8))
        ⟨.queen, .white⟩, Color.black⟩ ((0:Fin 8), (0:Fin 8)) ((0:Fin 8), (1:Fin 8)) =
      .error () :=
  (c2_checkmate_frozen ⟨bMate, .white⟩ ((1:Fin 8), (7:Fin 8)) ((1:Fin 8), (1:Fin 8))
    ⟨simMove bMate ((1:Fin 8), (7:Fin 8)) ((1:Fin 8), (1:Fin 8)) ⟨.queen, .white⟩,
      Color.black⟩ rfl).2.2.1 ((0:Fin 8), (0:Fin 8)) ((0:Fin 8), (1:Fin 8))
